import Mathlib

/-!
# Bencode decoder and canonical re-encoder (`src/Main.cpp`)

A shallow embedding of the decoder (`decode_bencoded_*`), the re-encoder
(`bencode_info_dict`), the digest rendering (`calculate_info_hash`) and the
inspection of a metadata document (`parse_torrent_file`) of `src/Main.cpp`,
followed by theorems about them.

Conventions of the embedding:

* a `std::string` is a list of bytes (`Bytes`); a cursor (`size_t`) is a `Nat`
  and every arithmetic step on it is taken modulo `2 ^ 64`;
* the value container `nlohmann::json` is the type `Json`, with the kinds this
  program can build: null, string, integer, array, object and binary;
* an object is a `std::map`, kept as a key-ordered association list that
  `map_assign` (the `dict[key] = value` of the source) maintains;
* a call either returns, throws a C++ exception, reads outside the buffer
  (undefined behaviour in C++), or exhausts the recursion budget `fuel` that
  stands for the C++ call stack: these are the four cases of `Res`;
* the functions of the C library (`isdigit`, `isprint`, `isspace`, `atoll`),
  of the C++ library (`find`, `substr`, `operator[]`, `stoll`, `std::sort`,
  the stream manipulators) and of `nlohmann::json` (the conversions `get<T>`
  and `get_to`, the subscript, the stream operator `<<`) are written out as
  what they compute in the C locale on a 64-bit platform; the digest function
  `SHA1` of OpenSSL is a parameter.
-/

namespace Bencode

/-- The bytes of a `std::string`. -/
abbrev Bytes := List UInt8

/-- The bytes of an ASCII literal, used to write inputs and outputs readably. -/
def bytes (s : String) : Bytes := s.toList.map (fun c => UInt8.ofNat c.toNat)

/-- The C++ exceptions the program can raise. -/
inductive Exn where
  | runtime_error
  | invalid_argument
  | out_of_range
  | type_error
  | invalid_iterator
deriving DecidableEq, Repr

/-- The outcome of a call: a returned value, a thrown exception, a read outside
the buffer (undefined behaviour), or an exhausted recursion budget. -/
inductive Res (α : Type) where
  | ok (a : α)
  | throw (e : Exn)
  | undefined
  | outOfFuel
deriving DecidableEq, Repr

/-- The value container `nlohmann::json`, restricted to the kinds this program
builds. `str` is a JSON string, `bin` a JSON binary value, `int` a
`number_integer` (64-bit signed), `obj` a `std::map` kept in key order. -/
inductive Json where
  | null
  | str (s : Bytes)
  | int (n : Int)
  | arr (xs : List Json)
  | obj (kvs : List (Bytes × Json))
  | bin (b : Bytes)
deriving Repr

mutual
/-- Equality of `json` values is decidable. -/
def Json.decEq : (a b : Json) → Decidable (a = b)
  | .null, .null => isTrue rfl
  | .null, .str _ => isFalse nofun
  | .null, .int _ => isFalse nofun
  | .null, .arr _ => isFalse nofun
  | .null, .obj _ => isFalse nofun
  | .null, .bin _ => isFalse nofun
  | .str _, .null => isFalse nofun
  | .str x, .str y => if h : x = y then isTrue (by rw [h]) else isFalse (fun e => h (Json.str.inj e))
  | .str _, .int _ => isFalse nofun
  | .str _, .arr _ => isFalse nofun
  | .str _, .obj _ => isFalse nofun
  | .str _, .bin _ => isFalse nofun
  | .int _, .null => isFalse nofun
  | .int _, .str _ => isFalse nofun
  | .int x, .int y => if h : x = y then isTrue (by rw [h]) else isFalse (fun e => h (Json.int.inj e))
  | .int _, .arr _ => isFalse nofun
  | .int _, .obj _ => isFalse nofun
  | .int _, .bin _ => isFalse nofun
  | .arr _, .null => isFalse nofun
  | .arr _, .str _ => isFalse nofun
  | .arr _, .int _ => isFalse nofun
  | .arr x, .arr y =>
    match Json.decEqList x y with
    | isTrue h => isTrue (by rw [h])
    | isFalse h => isFalse (fun e => h (Json.arr.inj e))
  | .arr _, .obj _ => isFalse nofun
  | .arr _, .bin _ => isFalse nofun
  | .obj _, .null => isFalse nofun
  | .obj _, .str _ => isFalse nofun
  | .obj _, .int _ => isFalse nofun
  | .obj _, .arr _ => isFalse nofun
  | .obj x, .obj y =>
    match Json.decEqMembers x y with
    | isTrue h => isTrue (by rw [h])
    | isFalse h => isFalse (fun e => h (Json.obj.inj e))
  | .obj _, .bin _ => isFalse nofun
  | .bin _, .null => isFalse nofun
  | .bin _, .str _ => isFalse nofun
  | .bin _, .int _ => isFalse nofun
  | .bin _, .arr _ => isFalse nofun
  | .bin _, .obj _ => isFalse nofun
  | .bin x, .bin y => if h : x = y then isTrue (by rw [h]) else isFalse (fun e => h (Json.bin.inj e))
termination_by structural a => a
/-- Equality of lists of `json` values is decidable. -/
def Json.decEqList : (xs ys : List Json) → Decidable (xs = ys)
  | [], [] => isTrue rfl
  | [], _ :: _ => isFalse nofun
  | _ :: _, [] => isFalse nofun
  | x :: xs, y :: ys =>
    match Json.decEq x y, Json.decEqList xs ys with
    | isTrue h1, isTrue h2 => isTrue (by rw [h1, h2])
    | isFalse h1, _ => isFalse (fun e => h1 (List.cons.inj e).1)
    | _, isFalse h2 => isFalse (fun e => h2 (List.cons.inj e).2)
termination_by structural xs => xs
/-- Equality of the entries of two maps is decidable. -/
def Json.decEqMembers : (xs ys : List (Bytes × Json)) → Decidable (xs = ys)
  | [], [] => isTrue rfl
  | [], _ :: _ => isFalse nofun
  | _ :: _, [] => isFalse nofun
  | (k, x) :: xs, (l, y) :: ys =>
    if hk : k = l then
      match Json.decEq x y, Json.decEqMembers xs ys with
      | isTrue h1, isTrue h2 => isTrue (by rw [hk, h1, h2])
      | isFalse h1, _ => isFalse (fun e => h1 (Prod.mk.inj (List.cons.inj e).1).2)
      | _, isFalse h2 => isFalse (fun e => h2 (List.cons.inj e).2)
    else isFalse (fun e => hk (Prod.mk.inj (List.cons.inj e).1).1)
termination_by structural xs => xs
end

instance : DecidableEq Json := Json.decEq

/-! ## The C and C++ library functions the source calls -/

/-- `std::isdigit` in the C locale. -/
def isdigit (c : UInt8) : Bool := 48 ≤ c.toNat && c.toNat ≤ 57

/-- `std::isprint` in the C locale; a byte of `0x80` and above (a negative
`char`) is not printable. -/
def isprint (c : UInt8) : Bool := 32 ≤ c.toNat && c.toNat ≤ 126

/-- `std::isspace` in the C locale: space, `\t`, `\n`, `\v`, `\f`, `\r`. -/
def isspace (c : UInt8) : Bool := c.toNat == 32 || (9 ≤ c.toNat && c.toNat ≤ 13)

/-- Index of the first byte with code `c` in a list. -/
def findIdx (c : Nat) : Bytes → Option Nat
  | [] => none
  | b :: bs => if b.toNat = c then some 0 else (findIdx c bs).map (· + 1)

/-- `s.find(c, pos)`: the first index at or after `pos` holding the byte `c`;
`none` is `std::string::npos`. -/
def find (s : Bytes) (c : Nat) (pos : Nat) : Option Nat :=
  (findIdx c (s.drop pos)).map (· + pos)

/-- `s.substr(pos, count)` for `pos ≤ s.size()`, which holds at every call of
the source: at most `count` bytes from `pos` on, fewer when the string ends. -/
def substr (s : Bytes) (pos count : Nat) : Bytes := (s.drop pos).take count

/-- `s[pos]` on a `const std::string`: the byte at `pos`, the terminating zero
at `pos = s.size()`, and undefined behaviour (`none`) beyond. -/
def charAt (s : Bytes) (pos : Nat) : Option UInt8 :=
  match s.drop pos with
  | b :: _ => some b
  | [] => if pos = s.length then some 0 else none

/-- Conversion of a 64-bit signed or over-long value to `size_t`. -/
def toSizeT (n : Int) : Nat := (n % (2 ^ 64 : Int)).toNat

/-- Leading white space is skipped by `strtoll`. -/
def skipSpace : Bytes → Bytes
  | [] => []
  | b :: bs => if isspace b then skipSpace bs else b :: bs

/-- Value of the longest run of decimal digits at the head of a list. -/
def digitsValue : Nat → Bytes → Nat
  | acc, [] => acc
  | acc, b :: bs => if isdigit b then digitsValue (acc * 10 + (b.toNat - 48)) bs else acc

/-- `std::atoll`: white space, an optional sign, then the longest run of digits
(zero when there is none); as in glibc the result saturates at the ends of the
64-bit range. -/
def atoll (s : Bytes) : Int :=
  match skipSpace s with
  | [] => 0
  | b :: bs =>
    if b.toNat = 45 then - (min (digitsValue 0 bs) (2 ^ 63) : Nat)
    else if b.toNat = 43 then (min (digitsValue 0 bs) (2 ^ 63 - 1) : Nat)
    else (min (digitsValue 0 (b :: bs)) (2 ^ 63 - 1) : Nat)

/-- Whether a list starts with a decimal digit. -/
def startsWithDigit : Bytes → Bool
  | [] => false
  | b :: _ => isdigit b

/-- Range check of `std::stoll` on a parsed sign and magnitude. -/
def stollRange (negative : Bool) (r : Bytes) : Except Exn Int :=
  if startsWithDigit r then
    if negative then
      (if digitsValue 0 r ≤ 2 ^ 63 then .ok (- (digitsValue 0 r : Int)) else .error .out_of_range)
    else
      (if digitsValue 0 r < 2 ^ 63 then .ok (digitsValue 0 r : Int) else .error .out_of_range)
  else .error .invalid_argument

/-- `std::stoll`: like `strtoll` in base 10, it skips white space, reads an
optional sign and the longest run of digits and ignores what follows; it throws
`invalid_argument` without a digit and `out_of_range` outside 64 bits. -/
def stoll (s : Bytes) : Except Exn Int :=
  match skipSpace s with
  | [] => .error .invalid_argument
  | b :: bs =>
    if b.toNat = 45 then stollRange true bs
    else if b.toNat = 43 then stollRange false bs
    else stollRange false (b :: bs)

/-! ## The decoder -/

/-- Source `is_binary_data`: some byte is neither printable nor white space. -/
def is_binary_data : Bytes → Bool
  | [] => false
  | ch :: rest => if !isprint ch && !isspace ch then true else is_binary_data rest

/-- Source `decode_bencoded_string`: the length is what `atoll` reads before
the first `:`; the payload is cut by `substr`, the cursor moved by the declared
length. -/
def decode_bencoded_string (encoded_string : Bytes) (position : Nat) : Res (Json × Nat) :=
  match find encoded_string 58 position with
  | some colon_index =>
    let string_size_str := substr encoded_string position (colon_index - position)
    let string_size_int := atoll string_size_str
    let position1 := (colon_index + 1) % 2 ^ 64
    let str := substr encoded_string position1 (toSizeT string_size_int)
    let position2 := toSizeT ((position1 : Int) + string_size_int)
    if is_binary_data str then .ok (.bin str, position2) else .ok (.str str, position2)
  | none => .throw .runtime_error

/-- Source `decode_bencoded_integer`. -/
def decode_bencoded_integer (encoded_number : Bytes) (position : Nat) : Res (Json × Nat) :=
  let position1 := (position + 1) % 2 ^ 64
  match find encoded_number 101 position1 with
  | none => .throw .invalid_argument
  | some e =>
    let integer_str := substr encoded_number position1 (e - position1)
    match stoll integer_str with
    | .ok n => .ok (.int n, (e + 1) % 2 ^ 64)
    | .error x => .throw x

/-- Strict order of `std::string`: lexicographic on unsigned byte values. -/
def bytesLt : Bytes → Bytes → Bool
  | [], [] => false
  | [], _ :: _ => true
  | _ :: _, [] => false
  | a :: as, b :: bs => a.toNat < b.toNat || (a.toNat == b.toNat && bytesLt as bs)

/-- The assignment `dict[key] = value` on a `std::map` kept in key order: a new
key is inserted at its place, an existing key keeps its place and takes the new
value. -/
def map_assign (key : Bytes) (value : Json) : List (Bytes × Json) → List (Bytes × Json)
  | [] => [(key, value)]
  | (k, v) :: rest =>
    if bytesLt key k then (key, value) :: (k, v) :: rest
    else if bytesLt k key then (k, v) :: map_assign key value rest
    else (k, value) :: rest

mutual
/-- Source `decode_bencoded_value(encoded_value, position)`; one unit of `fuel`
is one nested call or one loop iteration. -/
def decode_bencoded_value : Nat → Bytes → Nat → Res (Json × Nat)
  | 0, _, _ => .outOfFuel
  | fuel + 1, encoded_value, position =>
    match charAt encoded_value position with
    | none => .undefined
    | some c =>
      if isdigit c then decode_bencoded_string encoded_value position
      else if c.toNat = 105 then decode_bencoded_integer encoded_value position
      else if c.toNat = 108 then decode_bencoded_list fuel encoded_value position
      else if c.toNat = 100 then decode_bencoded_dictionary fuel encoded_value position
      else .throw .runtime_error
termination_by structural fuel => fuel
/-- Source `decode_bencoded_list`: the cursor steps over `l`, then the loop. -/
def decode_bencoded_list : Nat → Bytes → Nat → Res (Json × Nat)
  | 0, _, _ => .outOfFuel
  | fuel + 1, encoded_list, position =>
    decode_list_loop fuel encoded_list ((position + 1) % 2 ^ 64) []
termination_by structural fuel => fuel
/-- The `while` loop of `decode_bencoded_list`, `list` holding the elements
pushed so far. -/
def decode_list_loop : Nat → Bytes → Nat → List Json → Res (Json × Nat)
  | 0, _, _, _ => .outOfFuel
  | fuel + 1, encoded_list, position, list =>
    if position < encoded_list.length then
      match charAt encoded_list position with
      | none => .undefined
      | some c =>
        if c.toNat = 101 then .ok (.arr list, (position + 1) % 2 ^ 64)
        else
          match decode_bencoded_value fuel encoded_list position with
          | .ok (v, position1) => decode_list_loop fuel encoded_list position1 (list ++ [v])
          | .throw x => .throw x
          | .undefined => .undefined
          | .outOfFuel => .outOfFuel
    else .throw .runtime_error
termination_by structural fuel => fuel
/-- Source `decode_bencoded_dictionary`: the cursor steps over `d`, then the
loop. -/
def decode_bencoded_dictionary : Nat → Bytes → Nat → Res (Json × Nat)
  | 0, _, _ => .outOfFuel
  | fuel + 1, encoded_dictionary, position =>
    decode_dict_loop fuel encoded_dictionary ((position + 1) % 2 ^ 64) []
termination_by structural fuel => fuel
/-- The `while` loop of `decode_bencoded_dictionary`. The key is read by
`decode_bencoded_string` whatever its first byte is. In `dict[key] = value`
the right-hand side is evaluated first (the order of C++17), so the value is
decoded before `dict[key]` converts the `json` key to a `std::string`; the
conversion throws a `type_error` for a key that was stored as binary. -/
def decode_dict_loop : Nat → Bytes → Nat → List (Bytes × Json) → Res (Json × Nat)
  | 0, _, _, _ => .outOfFuel
  | fuel + 1, encoded_dictionary, position, dict =>
    if position < encoded_dictionary.length then
      match charAt encoded_dictionary position with
      | none => .undefined
      | some c =>
        if c.toNat = 101 then .ok (.obj dict, (position + 1) % 2 ^ 64)
        else
          match decode_bencoded_string encoded_dictionary position with
          | .ok (key, position1) =>
            (match decode_bencoded_value fuel encoded_dictionary position1 with
            | .ok (v, position2) =>
              (match key with
              | .str k => decode_dict_loop fuel encoded_dictionary position2 (map_assign k v dict)
              | _ => .throw .type_error)
            | .throw x => .throw x
            | .undefined => .undefined
            | .outOfFuel => .outOfFuel)
          | .throw x => .throw x
          | .undefined => .undefined
          | .outOfFuel => .outOfFuel
    else .throw .runtime_error
termination_by structural fuel => fuel
end

/-- Source `decode_bencoded_value(encoded_value)`: decoding from cursor 0; the
cursor is dropped. -/
def decode (fuel : Nat) (encoded_value : Bytes) : Res Json :=
  match decode_bencoded_value fuel encoded_value 0 with
  | .ok (v, _) => .ok v
  | .throw x => .throw x
  | .undefined => .undefined
  | .outOfFuel => .outOfFuel

/-! ## The re-encoder -/

/-- Sequencing of two steps: the second runs when the first returned. -/
def Res.bind {α β : Type} : Res α → (α → Res β) → Res β
  | .ok a, f => f a
  | .throw x, _ => .throw x
  | .undefined, _ => .undefined
  | .outOfFuel, _ => .outOfFuel

/-- The ASCII digit of a number below ten. -/
def digit (d : Nat) : UInt8 := UInt8.ofNat (48 + d)

/-- Decimal digits of `n` in front of `acc`, most significant first. -/
def natDecAux : Nat → Nat → Bytes → Bytes
  | 0, _, acc => acc
  | fuel + 1, n, acc =>
    if n < 10 then digit n :: acc else natDecAux fuel (n / 10) (digit (n % 10) :: acc)

/-- What `oss << n` writes for an unsigned `n`: its decimal form. -/
def natDec (n : Nat) : Bytes := natDecAux (n + 1) n []

/-- What `oss << n` writes for a signed `n`: a minus sign for a negative
number, then the decimal form of its magnitude. -/
def intDec (n : Int) : Bytes := if n < 0 then 45 :: natDec n.natAbs else natDec n.toNat

/-- The narrowing `value.get<int>()` of a 64-bit integer to a 32-bit `int`. -/
def toInt32 (n : Int) : Int := (n + 2 ^ 31) % 2 ^ 32 - 2 ^ 31

/-- Whether the code of a byte lies in a closed range. -/
def inRange (b : UInt8) (lo hi : Nat) : Bool := lo ≤ b.toNat && b.toNat ≤ hi

/-- Well-formed UTF-8, which the JSON serializer checks while it writes a
string (Unicode table 3-7); it throws `type_error` otherwise. -/
def utf8_valid : Bytes → Bool
  | [] => true
  | b0 :: rest =>
    if b0.toNat < 128 then utf8_valid rest
    else
      match rest with
      | [] => false
      | b1 :: rest1 =>
        if inRange b0 194 223 then inRange b1 128 191 && utf8_valid rest1
        else
          match rest1 with
          | [] => false
          | b2 :: rest2 =>
            if b0.toNat = 224 then inRange b1 160 191 && inRange b2 128 191 && utf8_valid rest2
            else if inRange b0 225 236 || inRange b0 238 239 then
              inRange b1 128 191 && inRange b2 128 191 && utf8_valid rest2
            else if b0.toNat = 237 then inRange b1 128 159 && inRange b2 128 191 && utf8_valid rest2
            else
              match rest2 with
              | [] => false
              | b3 :: rest3 =>
                if b0.toNat = 240 then
                  inRange b1 144 191 && inRange b2 128 191 && inRange b3 128 191 && utf8_valid rest3
                else if inRange b0 241 243 then
                  inRange b1 128 191 && inRange b2 128 191 && inRange b3 128 191 && utf8_valid rest3
                else if b0.toNat = 244 then
                  inRange b1 128 143 && inRange b2 128 191 && inRange b3 128 191 && utf8_valid rest3
                else false

/-- A lowercase hexadecimal digit. -/
def hexDigit (d : Nat) : UInt8 := if d < 10 then UInt8.ofNat (48 + d) else UInt8.ofNat (87 + d)

/-- How the JSON serializer writes one byte of a string: `\"` and `\\` for
the quote and the backslash, the short escapes `\b \t \n \f \r`, `\u00XX` for
the other control bytes, and the byte itself otherwise. -/
def escape (b : UInt8) : Bytes :=
  if b.toNat = 34 then [92, 34]
  else if b.toNat = 92 then [92, 92]
  else if b.toNat = 8 then [92, 98]
  else if b.toNat = 9 then [92, 116]
  else if b.toNat = 10 then [92, 110]
  else if b.toNat = 12 then [92, 102]
  else if b.toNat = 13 then [92, 114]
  else if b.toNat < 32 then [92, 117, 48, 48, hexDigit (b.toNat / 16), hexDigit (b.toNat % 16)]
  else [b]

/-- What `oss << value` writes for a `json` string: the stream operator of
`nlohmann::json` serializes the value as JSON text, so the string comes out
between double quotes with its bytes escaped. -/
def json_dump_string (s : Bytes) : Res Bytes :=
  if utf8_valid s then .ok ([34] ++ s.flatMap escape ++ [34]) else .throw .type_error

/-- Lines 162 and 173 of the source: the length of the string, a colon, then
the `json` value streamed with `<<`. -/
def emit_string (s : Bytes) : Res Bytes :=
  (json_dump_string s).bind (fun dumped => .ok (natDec s.length ++ [58] ++ dumped))

/-- The loop over the items of an array (lines 171 to 174): every item is read
with `get<std::string>()`, which throws `type_error` for an item that is not a
JSON string. -/
def emit_items : List Json → Res Bytes
  | [] => .ok []
  | .str s :: rest =>
    (emit_string s).bind (fun a => (emit_items rest).bind (fun b => .ok (a ++ b)))
  | _ :: _ => .throw .type_error

/-- The lookup `info_dict[key]` in a table indexed like the map; a missing key
does not occur, the keys being those of the map itself. -/
def lookup_entry {α : Type} (key : Bytes) : List (Bytes × Res α) → Res α
  | [] => .undefined
  | (k, r) :: rest => if k = key then r else lookup_entry key rest

/-- The order `std::sort` arranges the keys by, the `operator<` of
`std::string`: `a` may stand before `b` when `b` is not below `a`. -/
def bytesLe (a b : Bytes) : Prop := bytesLt b a = false

instance bytesLe_decidable : DecidableRel bytesLe :=
  fun a b => inferInstanceAs (Decidable (bytesLt b a = false))

/-- Source line 152, `std::sort(keys.begin(), keys.end())`. The order is
total, so every sorting algorithm gives the same list; insertion sort stands
for it here. -/
def sort_keys (keys : List Bytes) : List Bytes := keys.insertionSort bytesLe

/-- The loop of lines 154 to 187 over the sorted keys: each key is written as
`<length>:<key>`, followed by what the branches of lines 160 to 186 write for
`info_dict[key]`, which `table` holds for every key of the map. -/
def emit_entries (table : List (Bytes × Res Bytes)) : List Bytes → Res Bytes
  | [] => .ok []
  | key :: rest =>
    (lookup_entry key table).bind (fun value_bytes =>
      (emit_entries table rest).bind (fun tail =>
        .ok (natDec key.length ++ [58] ++ key ++ value_bytes ++ tail)))

/-- The body of `bencode_info_dict` on an object (lines 143 to 190): `d`, the
entries in the order of the sorted keys, `e`. `table` holds, for every key of
the map, what is written for its value. -/
def write_dict (table : List (Bytes × Res Bytes)) (keys : List Bytes) : Res Bytes :=
  (emit_entries table (sort_keys keys)).bind (fun body => .ok ([100] ++ body ++ [101]))

mutual
/-- For every entry of the map, what the branches of lines 160 to 186 write for
its value. -/
def emit_values : List (Bytes × Json) → List (Bytes × Res Bytes)
  | [] => []
  | (k, v) :: rest => (k, emit_value v) :: emit_values rest
termination_by structural kvs => kvs
/-- The branches of lines 160 to 186 on one value: a string is written as its
length, a colon and the streamed `json` value; an integer through
`get<int>()`; an array through the item loop; an object by the recursive call
of `bencode_info_dict` (line 179); a binary value as its length, a colon and
its raw bytes; nothing is written for a null, which no branch tests for. -/
def emit_value : Json → Res Bytes
  | .str s => emit_string s
  | .int n => .ok ([105] ++ intDec (toInt32 n) ++ [101])
  | .arr xs => (emit_items xs).bind (fun items => .ok ([108] ++ items ++ [101]))
  | .obj kvs => write_dict (emit_values kvs) (kvs.map Prod.fst)
  | .bin b => .ok (natDec b.length ++ [58] ++ b)
  | .null => .ok []
termination_by structural v => v
end

/-- Source `bencode_info_dict`. For an object: `d`, the entries in sorted key
order, `e`. For a null or an empty array the key loop has nothing to visit and
`de` is returned; for any other value `it.key()` throws `invalid_iterator`. -/
def bencode_info_dict : Json → Res Bytes
  | .obj kvs => write_dict (emit_values kvs) (kvs.map Prod.fst)
  | .null => .ok [100, 101]
  | .arr [] => .ok [100, 101]
  | .arr (_ :: _) => .throw .invalid_iterator
  | .str _ => .throw .invalid_iterator
  | .int _ => .throw .invalid_iterator
  | .bin _ => .throw .invalid_iterator

/-- Digits of `n` in base 16 in front of `acc`, lowercase. -/
def hexAux : Nat → Nat → Bytes → Bytes
  | 0, _, acc => acc
  | fuel + 1, n, acc =>
    if n < 16 then hexDigit n :: acc else hexAux fuel (n / 16) (hexDigit (n % 16) :: acc)

/-- What `stream << std::hex << n` writes for a non-negative `int`. -/
def hexNat (n : Nat) : Bytes := hexAux (n + 1) n []

/-- The effect of `std::setw(w)` and `std::setfill(c)` on the next output:
padding on the left up to the width `w`. -/
def setw_fill (w : Nat) (c : UInt8) (s : Bytes) : Bytes := List.replicate (w - s.length) c ++ s

/-- Source `calculate_info_hash`, over the digest function `SHA1` of OpenSSL,
which fills the 20 bytes of `hash`. -/
def calculate_info_hash (SHA1 : Bytes → Fin 20 → UInt8) (bencoded_info_dict : Bytes) : Bytes :=
  (List.finRange 20).flatMap (fun i => setw_fill 2 48 (hexNat (SHA1 bencoded_info_dict i).toNat))

/-! ## The wire format, as section 6 of the specification words it -/

/-- An encoded value as the specification describes the wire format: a
byte-string, an integer, a list of values, or a dictionary given by its
key/value pairs in the order they are written. -/
inductive Wire where
  | str (s : Bytes)
  | int (n : Int)
  | list (xs : List Wire)
  | dict (kvs : List (Bytes × Wire))

mutual
/-- The standard encoding of the specification: `<length>:<bytes>`,
`i<decimal>e`, `l<values>e`, `d<pairs>e`, the pairs in the order given. -/
def Wire.encode : Wire → Bytes
  | .str s => natDec s.length ++ 58 :: s
  | .int n => 105 :: (intDec n ++ [101])
  | .list xs => 108 :: (Wire.encodeList xs ++ [101])
  | .dict kvs => 100 :: (Wire.encodePairs kvs ++ [101])
termination_by structural v => v
/-- The encodings of the values of a list, one after the other. -/
def Wire.encodeList : List Wire → Bytes
  | [] => []
  | x :: xs => x.encode ++ Wire.encodeList xs
termination_by structural xs => xs
/-- The encodings of key/value pairs, one after the other: each key as a
byte-string, then its value. -/
def Wire.encodePairs : List (Bytes × Wire) → Bytes
  | [] => []
  | (k, v) :: rest => (natDec k.length ++ 58 :: k) ++ (v.encode ++ Wire.encodePairs rest)
termination_by structural kvs => kvs
end

mutual
/-- Every integer of the value fits the signed 64-bit range. -/
def Wire.intsFit : Wire → Bool
  | .str _ => true
  | .int n => decide (-(2 ^ 63) ≤ n) && decide (n < 2 ^ 63)
  | .list xs => Wire.intsFitList xs
  | .dict kvs => Wire.intsFitPairs kvs
termination_by structural v => v
/-- Every integer of the values of a list fits. -/
def Wire.intsFitList : List Wire → Bool
  | [] => true
  | x :: xs => x.intsFit && Wire.intsFitList xs
termination_by structural xs => xs
/-- Every integer of the values of the pairs fits. -/
def Wire.intsFitPairs : List (Bytes × Wire) → Bool
  | [] => true
  | (_, v) :: rest => v.intsFit && Wire.intsFitPairs rest
termination_by structural kvs => kvs
end

mutual
/-- Every dictionary key of the value, at any depth, is text: no byte of it
makes `is_binary_data` true. -/
def Wire.keysText : Wire → Bool
  | .str _ => true
  | .int _ => true
  | .list xs => Wire.keysTextList xs
  | .dict kvs => Wire.keysTextPairs kvs
termination_by structural v => v
/-- Every dictionary key within the values of a list is text. -/
def Wire.keysTextList : List Wire → Bool
  | [] => true
  | x :: xs => x.keysText && Wire.keysTextList xs
termination_by structural xs => xs
/-- Every key of the pairs, and every key within their values, is text. -/
def Wire.keysTextPairs : List (Bytes × Wire) → Bool
  | [] => true
  | (k, v) :: rest => !is_binary_data k && v.keysText && Wire.keysTextPairs rest
termination_by structural kvs => kvs
end

/-- The map obtained by assigning the pairs, in order, to the map `dict`. -/
def assign_all (dict : List (Bytes × Json)) (pairs : List (Bytes × Json)) : List (Bytes × Json) :=
  pairs.foldl (fun m kv => map_assign kv.1 kv.2 m) dict

mutual
/-- The `json` value an encoded value stands for: a byte-string is a string or
a binary value by `is_binary_data`, a list is an array in the same order, a
dictionary is the map its pairs build when assigned in order. -/
def Wire.toJson : Wire → Json
  | .str s => if is_binary_data s then .bin s else .str s
  | .int n => .int n
  | .list xs => .arr (Wire.toJsonList xs)
  | .dict kvs => .obj (assign_all [] (Wire.toJsonPairs kvs))
termination_by structural v => v
/-- The values of a list, each as a `json` value. -/
def Wire.toJsonList : List Wire → List Json
  | [] => []
  | x :: xs => x.toJson :: Wire.toJsonList xs
termination_by structural xs => xs
/-- The pairs with each value as a `json` value. -/
def Wire.toJsonPairs : List (Bytes × Wire) → List (Bytes × Json)
  | [] => []
  | (k, v) :: rest => (k, v.toJson) :: Wire.toJsonPairs rest
termination_by structural kvs => kvs
end

/-- The entries of a map stand in strictly ascending key order. -/
def KeyOrdered (m : List (Bytes × Json)) : Prop :=
  m.Pairwise (fun a b => bytesLt a.1 b.1 = true)

mutual
/-- The value holds no dictionary at any depth. -/
def Wire.dictFree : Wire → Bool
  | .str _ => true
  | .int _ => true
  | .list xs => Wire.dictFreeList xs
  | .dict _ => false
termination_by structural v => v
/-- No value of the list holds a dictionary. -/
def Wire.dictFreeList : List Wire → Bool
  | [] => true
  | x :: xs => x.dictFree && Wire.dictFreeList xs
termination_by structural xs => xs
end

/-- Decoding a buffer from cursor 0 and re-encoding the decoded value with
`bencode_info_dict`, as lines 222 and 230 of the source do in turn. -/
def reencode (fuel : Nat) (input : Bytes) : Res Bytes :=
  (decode fuel input).bind bencode_info_dict

/-- The digest `calculate_info_hash` renders for the re-encoded bytes (line
231 of the source). -/
def reencode_hash (SHA1 : Bytes → Fin 20 → UInt8) (fuel : Nat) (input : Bytes) : Res Bytes :=
  (reencode fuel input).bind (fun b => .ok (calculate_info_hash SHA1 b))

mutual
/-- The invariant of `std::map` at every dictionary of a value: no key occurs
twice, in the dictionary itself and in the dictionaries among its values. -/
def Json.distinctKeys : Json → Prop
  | .obj kvs => (kvs.map Prod.fst).Nodup ∧ Json.distinctKeysMembers kvs
  | .null => True
  | .str _ => True
  | .int _ => True
  | .arr _ => True
  | .bin _ => True
termination_by structural v => v
/-- The invariant holds in every value of the entries. -/
def Json.distinctKeysMembers : List (Bytes × Json) → Prop
  | [] => True
  | (_, v) :: rest => v.distinctKeys ∧ Json.distinctKeysMembers rest
termination_by structural kvs => kvs
end

/-- The property of the output the specification asks for: `AscendingLayout v
out` says that the bytes `out` written for a dictionary `v` are `d`, then for
each entry `<key length>:<key>` and the bytes of its value, then `e`, where
the keys of the entries are strictly ascending in byte order, the entries are
the key/value pairs of the dictionary, each once, and the bytes of every value
that is itself a dictionary have the same property. Nothing is asked of the
bytes of a value that is not a dictionary. -/
inductive AscendingLayout : Json → Bytes → Prop where
  | other (v : Json) (out : Bytes) : (∀ kvs, v ≠ Json.obj kvs) → AscendingLayout v out
  | dict (kvs : List (Bytes × Json)) (entries : List (Bytes × Json × Bytes)) :
      (entries.map (fun e => e.1)).Pairwise (fun a b => bytesLt a b = true) →
      (entries.map (fun e => (e.1, e.2.1))).Perm kvs →
      (∀ e ∈ entries, AscendingLayout e.2.1 e.2.2) →
      AscendingLayout (Json.obj kvs)
        ([100] ++ entries.flatMap (fun e => natDec e.1.length ++ [58] ++ e.1 ++ e.2.2) ++ [101])

/-- The text of a number begins, after white space, with a minus sign. -/
def hasMinus (t : Bytes) : Bool :=
  match skipSpace t with
  | [] => false
  | b :: _ => b.toNat == 45

/-- What is left of the text of a number after the white space and the
optional sign (`+` or `-`) that `std::stoll` accepts in front of the digits. -/
def afterSign (t : Bytes) : Bytes :=
  match skipSpace t with
  | [] => []
  | b :: bs => if b.toNat = 45 ∨ b.toNat = 43 then bs else b :: bs

/-- One of the characters `0` to `9` and `a` to `f`. -/
def isLowerHex (c : UInt8) : Bool :=
  (48 ≤ c.toNat && c.toNat ≤ 57) || (97 ≤ c.toNat && c.toNat ≤ 102)

/-- The sixteen lowercase hexadecimal digits in the order of their values,
`0` to `9` and then `a` to `f`, as section 4.3 of the specification names them. -/
def lower_hex_alphabet : Bytes := bytes "0123456789abcdef"

/-- The zero-padded two-digit lowercase hexadecimal form of one byte, as the
specification words it: the digit of `b / 16`, then the digit of `b % 16`,
both taken from the alphabet. Written from the specification, to be compared
with what `calculate_info_hash` writes. -/
def hex_two_digits (b : UInt8) : Bytes :=
  [lower_hex_alphabet.getD (b.toNat / 16) 0, lower_hex_alphabet.getD (b.toNat % 16) 0]

/-- The number a hexadecimal digit character stands for: `0` to `9` for the
characters `0` to `9`, 10 to 15 for `a` to `f`. No other character is a
digit. -/
def hex_value (c : UInt8) : Option Nat :=
  if 48 ≤ c.toNat ∧ c.toNat ≤ 57 then some (c.toNat - 48)
  else if 97 ≤ c.toNat ∧ c.toNat ≤ 102 then some (c.toNat - 97 + 10)
  else none

/-- The byte a pair of hexadecimal digit characters stands for, the high digit
first. -/
def hex_pair_value (hi lo : UInt8) : Option Nat :=
  match hex_value hi, hex_value lo with
  | some h, some l => some (16 * h + l)
  | _, _ => none

/-- A digest function for the examples: at every input it gives the twenty
bytes `da 39 a3 ee 5e 6b 4b 0d 32 55 bf ef 95 60 18 90 af d8 07 09`, the
SHA-1 digest of the empty input. -/
def sample_digest : Bytes → Fin 20 → UInt8 :=
  fun _ i =>
    ([218, 57, 163, 238, 94, 107, 75, 13, 50, 85, 191, 239, 149, 96, 24, 144, 175, 216, 7, 9] :
      List UInt8).getD i.val 0

/-! ## The canonical encoder, as section 4.2 of the specification words it -/

/-- The entries, each a key with the encoding of its value, in ascending order
of the keys. -/
def sort_by_key (entries : List (Bytes × Bytes)) : List (Bytes × Bytes) :=
  entries.insertionSort (fun a b => bytesLe a.1 b.1)

mutual
/-- The algorithm of the specification: for a dictionary `d`, then for each
key in ascending byte order the key as `<length>:<bytes>` followed by its
value, then `e`; a byte-string, text or binary, as `<length>:<bytes>`; an
integer as `i<decimal>e`; a list as `l`, its elements, `e`. A null, which is
none of the four kinds, has no bytes. -/
def encode_canonical : Json → Bytes
  | .obj kvs =>
    100 :: ((sort_by_key (encode_canonical_members kvs)).flatMap
      (fun e => natDec e.1.length ++ 58 :: e.1 ++ e.2) ++ [101])
  | .str s => natDec s.length ++ 58 :: s
  | .bin b => natDec b.length ++ 58 :: b
  | .int n => 105 :: (intDec n ++ [101])
  | .arr xs => 108 :: (encode_canonical_list xs ++ [101])
  | .null => []
termination_by structural v => v
/-- Every key of a dictionary with the encoding of its value. -/
def encode_canonical_members : List (Bytes × Json) → List (Bytes × Bytes)
  | [] => []
  | (k, v) :: rest => (k, encode_canonical v) :: encode_canonical_members rest
termination_by structural kvs => kvs
/-- The encodings of the elements of a list, one after the other. -/
def encode_canonical_list : List Json → Bytes
  | [] => []
  | x :: xs => encode_canonical x ++ encode_canonical_list xs
termination_by structural xs => xs
end

mutual
/-- The values that are a binary byte-string, an integer within the signed
32-bit range, or a dictionary whose values are all of this shape. -/
def Json.plain : Json → Bool
  | .bin _ => true
  | .int n => decide (-(2 ^ 31) ≤ n) && decide (n < 2 ^ 31)
  | .obj kvs => Json.plainMembers kvs
  | .str _ => false
  | .arr _ => false
  | .null => false
termination_by structural v => v
/-- Every value of the entries is of that shape. -/
def Json.plainMembers : List (Bytes × Json) → Bool
  | [] => true
  | (_, v) :: rest => v.plain && Json.plainMembers rest
termination_by structural kvs => kvs
end

/-! ## The inspection of a metadata document -/

/-- The entry of a `std::map` under a key, if there is one. -/
def map_find (key : Bytes) : List (Bytes × Json) → Option Json
  | [] => none
  | (k, v) :: rest => if k = key then some v else map_find key rest

/-- The subscript `j[key]` with a string key on a `json` value that is not
`const`: on an object it gives the element under the key and first inserts a
null under a key the object does not hold; a null value becomes an object
first; any other value throws a `type_error`. The result is the value `j`
after the call, paired with the element referred to. -/
def subscript (j : Json) (key : Bytes) : Res (Json × Json) :=
  match j with
  | .null => .ok (.obj [(key, .null)], .null)
  | .obj kvs =>
    (match map_find key kvs with
    | some v => .ok (.obj kvs, v)
    | none => .ok (.obj (map_assign key .null kvs), .null))
  | .str _ => .throw .type_error
  | .int _ => .throw .type_error
  | .arr _ => .throw .type_error
  | .bin _ => .throw .type_error

/-- The effect on `j` of a change made through the reference `j[key]`: the
element under the key is now `v`. -/
def store (j : Json) (key : Bytes) (v : Json) : Json :=
  match j with
  | .obj kvs => .obj (map_assign key v kvs)
  | .null => .null
  | .str s => .str s
  | .int n => .int n
  | .arr xs => .arr xs
  | .bin b => .bin b

/-- The conversion `get_to(std::string&)`: the bytes of a JSON string, a
`type_error` for any other value. -/
def get_to_string : Json → Res Bytes
  | .str s => .ok s
  | .null => .throw .type_error
  | .int _ => .throw .type_error
  | .arr _ => .throw .type_error
  | .obj _ => .throw .type_error
  | .bin _ => .throw .type_error

mutual
/-- Whether streaming a `json` value with `<<` throws: the serializer throws a
`type_error` at a string or an object key that is not well-formed UTF-8. -/
def dump_throws : Json → Bool
  | .str s => !utf8_valid s
  | .arr xs => dump_throws_list xs
  | .obj kvs => dump_throws_members kvs
  | .null => false
  | .int _ => false
  | .bin _ => false
termination_by structural v => v
/-- Streaming some element of the list throws. -/
def dump_throws_list : List Json → Bool
  | [] => false
  | x :: xs => dump_throws x || dump_throws_list xs
termination_by structural xs => xs
/-- Streaming some key or value of the entries throws. -/
def dump_throws_members : List (Bytes × Json) → Bool
  | [] => false
  | (k, v) :: rest => !utf8_valid k || dump_throws v || dump_throws_members rest
termination_by structural kvs => kvs
end

/-- What `parse_torrent_file` surfaces: the tracker URL, the value printed as
the length, the bytes handed to the digest, the digest in hexadecimal, and the
decoded tree as the reads leave it. -/
structure Inspection where
  tracker_url : Bytes
  length : Json
  bencoded_info : Bytes
  info_hash : Bytes
  decoded_data : Json
deriving DecidableEq

/-- Lines 224 to 232 of `parse_torrent_file`, on the decoded document. The
subscripts are those of a `json` value that is not `const`, so each may insert
a null; the element `decoded_data["info"]` is changed in place by the
subscript `["length"]` applied to it. -/
def inspect (SHA1 : Bytes → Fin 20 → UInt8) (decoded_data : Json) : Res Inspection :=
  (subscript decoded_data (bytes "announce")).bind (fun a =>
    (get_to_string a.2).bind (fun tracker_url =>
      (subscript a.1 (bytes "info")).bind (fun i =>
        (subscript i.2 (bytes "length")).bind (fun l =>
          if dump_throws l.2 then .throw .type_error
          else
            (subscript (store i.1 (bytes "info") l.1) (bytes "info")).bind (fun j =>
              (bencode_info_dict j.2).bind (fun bencoded_info =>
                .ok { tracker_url := tracker_url
                      length := l.2
                      bencoded_info := bencoded_info
                      info_hash := calculate_info_hash SHA1 bencoded_info
                      decoded_data := j.1 }))))))

/-- Source `parse_torrent_file`, on the contents of the file: the document is
decoded from cursor 0 and inspected. -/
def parse_torrent_file (SHA1 : Bytes → Fin 20 → UInt8) (fuel : Nat) (torrent_data : Bytes) :
    Res Inspection :=
  (decode fuel torrent_data).bind (inspect SHA1)

/-! ## Lemmas on the library functions -/

theorem digit_toNat {d : Nat} (h : d < 10) : (digit d).toNat = 48 + d := by
  unfold digit
  simp [UInt8.toNat, UInt8.ofNat, Fin.ofNat]
  omega

theorem isdigit_digit {d : Nat} (h : d < 10) : isdigit (digit d) = true := by
  simp [isdigit, digit_toNat h]
  omega

theorem natDecAux_fuel : ∀ (f g n : Nat) (acc : Bytes), n < f → n < g →
    natDecAux f n acc = natDecAux g n acc := by
  intro f
  induction f with
  | zero => intro g n acc h; omega
  | succ f ih =>
    intro g n acc hf hg
    cases g with
    | zero => omega
    | succ g =>
      simp only [natDecAux]
      split
      · rfl
      · apply ih <;> omega

theorem natDecAux_acc : ∀ (f n : Nat) (acc : Bytes),
    natDecAux f n acc = natDecAux f n [] ++ acc := by
  intro f
  induction f with
  | zero => intro n acc; simp [natDecAux]
  | succ f ih =>
    intro n acc
    simp only [natDecAux]
    split
    · simp
    · rw [ih _ (digit (n % 10) :: acc), ih _ [digit (n % 10)]]
      simp

theorem natDec_small {n : Nat} (h : n < 10) : natDec n = [digit n] := by
  simp [natDec, natDecAux, h]

theorem natDec_big {n : Nat} (h : 10 ≤ n) : natDec n = natDec (n / 10) ++ [digit (n % 10)] := by
  have h1 : ¬ n < 10 := by omega
  rw [natDec, natDecAux]
  simp only [h1, if_false]
  rw [natDecAux_acc, natDec, natDecAux_fuel n (n / 10 + 1) (n / 10) [] (by omega) (by omega)]

theorem natDec_isdigit (n : Nat) : ∀ b ∈ natDec n, isdigit b = true := by
  induction n using Nat.strong_induction_on with
  | _ n ih =>
    by_cases h : n < 10
    · rw [natDec_small h]
      intro b hb
      simp at hb
      subst hb
      exact isdigit_digit h
    · rw [natDec_big (by omega)]
      intro b hb
      rcases List.mem_append.mp hb with hb | hb
      · exact ih (n / 10) (by omega) b hb
      · simp at hb
        subst hb
        exact isdigit_digit (by omega)

theorem natDec_ne_nil (n : Nat) : natDec n ≠ [] := by
  by_cases h : n < 10
  · rw [natDec_small h]; simp
  · rw [natDec_big (by omega)]; simp

theorem digitsValue_natDec (n : Nat) : ∀ rest : Bytes,
    digitsValue 0 (natDec n ++ rest) = digitsValue n rest := by
  induction n using Nat.strong_induction_on with
  | _ n ih =>
    intro rest
    by_cases h : n < 10
    · rw [natDec_small h]
      simp [digitsValue, isdigit_digit h, digit_toNat h]
    · rw [natDec_big (by omega), List.append_assoc, ih (n / 10) (by omega)]
      have h2 : n % 10 < 10 := by omega
      simp only [List.singleton_append, digitsValue, isdigit_digit h2, digit_toNat h2, if_true]
      congr 1
      omega

theorem toSizeT_natCast {n : Nat} (h : n < 2 ^ 64) : toSizeT (n : Int) = n := by
  unfold toSizeT
  omega

theorem charAt_of_drop {s : Bytes} {pos : Nat} {b : UInt8} {rest : Bytes}
    (h : s.drop pos = b :: rest) : charAt s pos = some b := by
  simp [charAt, h]

theorem lt_length_of_drop {s : Bytes} {pos : Nat} {b : UInt8} {rest : Bytes}
    (h : s.drop pos = b :: rest) : pos < s.length := by
  by_contra hc
  rw [List.drop_of_length_le (by omega)] at h
  cases h

theorem length_of_drop {s : Bytes} {pos : Nat} {a rest : Bytes}
    (h : s.drop pos = a ++ rest) (ha : a ≠ []) : pos + a.length + rest.length = s.length := by
  have h1 := congrArg List.length h
  simp at h1
  have h2 : pos < s.length := by
    cases a with
    | nil => exact absurd rfl ha
    | cons b t => exact lt_length_of_drop h
  omega

theorem drop_add_of_drop {s : Bytes} {pos : Nat} {a rest : Bytes}
    (h : s.drop pos = a ++ rest) : s.drop (pos + a.length) = rest := by
  rw [← List.drop_drop, h, List.drop_left]

theorem findIdx_append (c : Nat) : ∀ (ds : Bytes) (x : UInt8) (rest : Bytes),
    (∀ b ∈ ds, b.toNat ≠ c) → x.toNat = c → findIdx c (ds ++ x :: rest) = some ds.length := by
  intro ds
  induction ds with
  | nil => intro x rest _ hx; simp [findIdx, hx]
  | cons d ds ih =>
    intro x rest hds hx
    have hd : d.toNat ≠ c := hds d (by simp)
    simp [findIdx, hd, ih x rest (fun b hb => hds b (by simp [hb])) hx]

theorem skipSpace_of_digit {b : UInt8} {bs : Bytes} (h : isdigit b = true) :
    skipSpace (b :: bs) = b :: bs := by
  have : isspace b = false := by
    simp [isdigit, isspace] at *
    omega
  simp [skipSpace, this]

theorem digitsValue_nil (n : Nat) : digitsValue n [] = n := rfl

theorem atoll_natDec {n : Nat} (h : n < 2 ^ 63) : atoll (natDec n) = n := by
  have hne := natDec_ne_nil n
  have hd := natDec_isdigit n
  have hv := digitsValue_natDec n []
  rw [List.append_nil] at hv
  cases hnd : natDec n with
  | nil => exact absurd hnd hne
  | cons b bs =>
    rw [hnd] at hd hv
    have hb : isdigit b = true := hd b (by simp)
    have hb2 : 48 ≤ b.toNat ∧ b.toNat ≤ 57 := by simpa [isdigit] using hb
    have h45 : b.toNat ≠ 45 := by omega
    have h43 : b.toNat ≠ 43 := by omega
    unfold atoll
    rw [skipSpace_of_digit hb]
    simp only [h45, h43, if_false, hv, digitsValue_nil]
    congr 1
    omega

/-- On a well-formed byte-string at the cursor, `decode_bencoded_string`
returns the payload and leaves the cursor behind it. -/
theorem decode_bencoded_string_wire {s : Bytes} {pos : Nat} {k rest : Bytes}
    (hdrop : s.drop pos = natDec k.length ++ 58 :: (k ++ rest))
    (hlen : s.length < 2 ^ 63) :
    decode_bencoded_string s pos =
      .ok (if is_binary_data k then Json.bin k else Json.str k,
        pos + (natDec k.length).length + 1 + k.length) := by
  have hd := natDec_isdigit k.length
  have hfind : find s 58 pos = some ((natDec k.length).length + pos) := by
    unfold find
    rw [hdrop, findIdx_append 58 _ 58 _ _ rfl]
    · rfl
    · intro b hb
      have := hd b hb
      simp [isdigit] at this
      omega
  have htot := congrArg List.length hdrop
  simp at htot
  have hpos : pos < s.length := by
    cases hnd : natDec k.length with
    | nil => exact absurd hnd (natDec_ne_nil _)
    | cons b bs => rw [hnd] at hdrop; exact lt_length_of_drop hdrop
  have hk : k.length < 2 ^ 63 := by omega
  have hstr : substr s pos ((natDec k.length).length + pos - pos) = natDec k.length := by
    unfold substr
    rw [hdrop, Nat.add_sub_cancel, List.take_left]
  have hp1 : ((natDec k.length).length + pos + 1) % 2 ^ 64 = pos + (natDec k.length).length + 1 := by
    omega
  have hdrop2 : s.drop (pos + (natDec k.length).length + 1) = k ++ rest := by
    have := @drop_add_of_drop s pos (natDec k.length ++ [58]) (k ++ rest)
      (by simpa using hdrop)
    simpa [Nat.add_assoc] using this
  unfold decode_bencoded_string
  rw [hfind]
  simp only [hstr, atoll_natDec hk, hp1]
  rw [toSizeT_natCast (by omega)]
  have hsub : substr s (pos + (natDec k.length).length + 1) k.length = k := by
    unfold substr
    rw [hdrop2, List.take_left]
  have hp2 : toSizeT (((pos + (natDec k.length).length + 1 : Nat) : Int) + (k.length : Int)) =
      pos + (natDec k.length).length + 1 + k.length := by
    have := toSizeT_natCast (n := pos + (natDec k.length).length + 1 + k.length) (by omega)
    rw [← this]
    congr 1
  rw [hsub, hp2]
  split <;> rfl

theorem stollRange_natDec_pos {n : Nat} (h : n < 2 ^ 63) :
    stollRange false (natDec n) = .ok (n : Int) := by
  have hv := digitsValue_natDec n []
  rw [List.append_nil, digitsValue_nil] at hv
  have hs : startsWithDigit (natDec n) = true := by
    cases hnd : natDec n with
    | nil => exact absurd hnd (natDec_ne_nil n)
    | cons b bs =>
      have := natDec_isdigit n b (by simp [hnd])
      simpa [startsWithDigit] using this
  simp only [stollRange, hs, hv, if_true]
  rw [if_neg (by simp), if_pos h]

theorem stollRange_natDec_neg {n : Nat} (h : n ≤ 2 ^ 63) :
    stollRange true (natDec n) = .ok (- (n : Int)) := by
  have hv := digitsValue_natDec n []
  rw [List.append_nil, digitsValue_nil] at hv
  have hs : startsWithDigit (natDec n) = true := by
    cases hnd : natDec n with
    | nil => exact absurd hnd (natDec_ne_nil n)
    | cons b bs =>
      have := natDec_isdigit n b (by simp [hnd])
      simpa [startsWithDigit] using this
  simp only [stollRange, hs, hv, if_true]
  rw [if_pos h]

theorem stoll_intDec {n : Int} (hlo : -(2 ^ 63) ≤ n) (hhi : n < 2 ^ 63) :
    stoll (intDec n) = .ok n := by
  unfold intDec
  by_cases hn : n < 0
  · simp only [hn, if_true]
    have h45 : (45 : UInt8).toNat = 45 := rfl
    have hsp : skipSpace (45 :: natDec n.natAbs) = 45 :: natDec n.natAbs := by
      have hsp0 : isspace 45 = false := by decide
      simp only [skipSpace, hsp0]
      rfl
    unfold stoll
    rw [hsp]
    simp only [h45, if_true]
    rw [stollRange_natDec_neg (by omega)]
    congr 1
    omega
  · simp only [hn, if_false]
    cases hnd : natDec n.toNat with
    | nil => exact absurd hnd (natDec_ne_nil _)
    | cons b bs =>
      have hb : isdigit b = true := natDec_isdigit n.toNat b (by simp [hnd])
      have hb2 : 48 ≤ b.toNat ∧ b.toNat ≤ 57 := by simpa [isdigit] using hb
      have h45 : b.toNat ≠ 45 := by omega
      have h43 : b.toNat ≠ 43 := by omega
      unfold stoll
      rw [skipSpace_of_digit hb]
      simp only [h45, h43, if_false]
      rw [← hnd, stollRange_natDec_pos (by omega)]
      congr 1
      omega

theorem intDec_not_e (n : Int) : ∀ b ∈ intDec n, b.toNat ≠ 101 := by
  intro b hb
  unfold intDec at hb
  have key : ∀ m : Nat, ∀ c ∈ natDec m, c.toNat ≠ 101 := by
    intro m c hc
    have := natDec_isdigit m c hc
    simp [isdigit] at this
    omega
  split at hb
  · rcases List.mem_cons.mp hb with hb | hb
    · subst hb; decide
    · exact key _ b hb
  · exact key _ b hb

/-- On a well-formed integer at the cursor, `decode_bencoded_integer` returns
the number and leaves the cursor behind the closing `e`. -/
theorem decode_bencoded_integer_wire {s : Bytes} {pos : Nat} {n : Int} {rest : Bytes}
    (hdrop : s.drop pos = 105 :: (intDec n ++ 101 :: rest))
    (hlen : s.length < 2 ^ 63) (hlo : -(2 ^ 63) ≤ n) (hhi : n < 2 ^ 63) :
    decode_bencoded_integer s pos = .ok (Json.int n, pos + 1 + (intDec n).length + 1) := by
  have hpos := lt_length_of_drop hdrop
  have hdrop1 : s.drop (pos + 1) = intDec n ++ 101 :: rest := by
    have := @drop_add_of_drop s pos [105] (intDec n ++ 101 :: rest)
      (by simpa using hdrop)
    simpa using this
  have htot := congrArg List.length hdrop
  simp at htot
  have hp1 : (pos + 1) % 2 ^ 64 = pos + 1 := by omega
  have hfind : find s 101 (pos + 1) = some ((intDec n).length + (pos + 1)) := by
    unfold find
    rw [hdrop1, findIdx_append 101 _ 101 _ (intDec_not_e n) rfl]
    rfl
  have hsub : substr s (pos + 1) ((intDec n).length + (pos + 1) - (pos + 1)) = intDec n := by
    unfold substr
    rw [hdrop1, Nat.add_sub_cancel, List.take_left]
  unfold decode_bencoded_integer
  simp only [hp1, hfind, hsub, stoll_intDec hlo hhi]
  have hp2 : ((intDec n).length + (pos + 1) + 1) % 2 ^ 64 = pos + 1 + (intDec n).length + 1 := by
    omega
  rw [hp2]

/-! ## The decoder on well-formed input -/

theorem natDec_head (n : Nat) : ∃ b t, natDec n = b :: t ∧ isdigit b = true := by
  cases hnd : natDec n with
  | nil => exact absurd hnd (natDec_ne_nil n)
  | cons b bs => exact ⟨b, bs, rfl, natDec_isdigit n b (by simp [hnd])⟩

/-- An encoded value is at least two bytes long and starts with a digit, `i`,
`l` or `d`. -/
theorem Wire.encode_head (v : Wire) : ∃ b t, v.encode = b :: t ∧ t ≠ [] ∧
    (isdigit b = true ∨ b.toNat = 105 ∨ b.toNat = 108 ∨ b.toNat = 100) := by
  cases v with
  | str s =>
    obtain ⟨b, t, ht, hb⟩ := natDec_head s.length
    exact ⟨b, t ++ 58 :: s, by simp [Wire.encode, ht], by simp, Or.inl hb⟩
  | int n => exact ⟨105, intDec n ++ [101], by simp [Wire.encode], by simp, Or.inr (Or.inl rfl)⟩
  | list xs =>
    exact ⟨108, Wire.encodeList xs ++ [101], by simp [Wire.encode], by simp,
      Or.inr (Or.inr (Or.inl rfl))⟩
  | dict kvs =>
    exact ⟨100, Wire.encodePairs kvs ++ [101], by simp [Wire.encode], by simp,
      Or.inr (Or.inr (Or.inr rfl))⟩

theorem Wire.encode_length (v : Wire) : 2 ≤ v.encode.length := by
  obtain ⟨b, t, ht, hne, _⟩ := v.encode_head
  rw [ht]
  cases t with
  | nil => exact absurd rfl hne
  | cons c t => simp

theorem not_e_of_head {b : UInt8}
    (h : isdigit b = true ∨ b.toNat = 105 ∨ b.toNat = 108 ∨ b.toNat = 100) : b.toNat ≠ 101 := by
  rcases h with h | h | h | h
  · simp [isdigit] at h; omega
  all_goals omega

theorem decode_list_loop_end {f : Nat} {s : Bytes} {pos : Nat} {rest : Bytes} (acc : List Json)
    (hdrop : s.drop pos = 101 :: rest) (hlen : s.length < 2 ^ 63) :
    decode_list_loop (f + 1) s pos acc = .ok (.arr acc, pos + 1) := by
  have hpos := lt_length_of_drop hdrop
  have h101 : (101 : UInt8).toNat = 101 := rfl
  have hp : (pos + 1) % 2 ^ 64 = pos + 1 := by omega
  simp only [decode_list_loop, hpos, charAt_of_drop hdrop, h101, hp, if_true]

theorem decode_list_loop_step {f : Nat} {s : Bytes} {pos : Nat} {b : UInt8} {rest : Bytes}
    (acc : List Json) (hdrop : s.drop pos = b :: rest) (hb : b.toNat ≠ 101) :
    decode_list_loop (f + 1) s pos acc =
      (decode_bencoded_value f s pos).bind
        (fun r => decode_list_loop f s r.2 (acc ++ [r.1])) := by
  have hpos := lt_length_of_drop hdrop
  simp only [decode_list_loop, hpos, charAt_of_drop hdrop, hb, if_true, if_false]
  cases decode_bencoded_value f s pos with
  | ok r => cases r; rfl
  | throw x => rfl
  | undefined => rfl
  | outOfFuel => rfl

theorem decode_dict_loop_end {f : Nat} {s : Bytes} {pos : Nat} {rest : Bytes}
    (acc : List (Bytes × Json))
    (hdrop : s.drop pos = 101 :: rest) (hlen : s.length < 2 ^ 63) :
    decode_dict_loop (f + 1) s pos acc = .ok (.obj acc, pos + 1) := by
  have hpos := lt_length_of_drop hdrop
  have h101 : (101 : UInt8).toNat = 101 := rfl
  have hp : (pos + 1) % 2 ^ 64 = pos + 1 := by omega
  simp only [decode_dict_loop, hpos, charAt_of_drop hdrop, h101, hp, if_true]

/-- One round of the dictionary loop on a well-formed key: the key is read,
then the value, then the key is converted. -/
theorem decode_dict_loop_step {f : Nat} {s : Bytes} {pos : Nat} {k rest : Bytes}
    (acc : List (Bytes × Json))
    (hdrop : s.drop pos = natDec k.length ++ 58 :: (k ++ rest)) (hlen : s.length < 2 ^ 63) :
    decode_dict_loop (f + 1) s pos acc =
      (decode_bencoded_value f s (pos + (natDec k.length).length + 1 + k.length)).bind
        (fun r => if is_binary_data k then .throw .type_error
          else decode_dict_loop f s r.2 (map_assign k r.1 acc)) := by
  obtain ⟨b, t, ht, hb⟩ := natDec_head k.length
  have hdrop0 : s.drop pos = b :: (t ++ 58 :: (k ++ rest)) := by rw [hdrop, ht]; rfl
  have hpos := lt_length_of_drop hdrop0
  have hb101 : b.toNat ≠ 101 := not_e_of_head (Or.inl hb)
  simp only [decode_dict_loop, hpos, charAt_of_drop hdrop0, hb101, if_true, if_false,
    decode_bencoded_string_wire hdrop hlen]
  cases decode_bencoded_value f s (pos + (natDec k.length).length + 1 + k.length) with
  | ok r =>
    cases r
    by_cases hk : is_binary_data k = true
    · simp [Res.bind, hk]
    · simp [Res.bind, hk]
  | throw x => rfl
  | undefined => rfl
  | outOfFuel => rfl

theorem decode_value_digit {f : Nat} {s : Bytes} {pos : Nat} {b : UInt8} {rest : Bytes}
    (hdrop : s.drop pos = b :: rest) (hb : isdigit b = true) :
    decode_bencoded_value (f + 1) s pos = decode_bencoded_string s pos := by
  simp only [decode_bencoded_value, charAt_of_drop hdrop, hb, if_true]

theorem decode_value_i {f : Nat} {s : Bytes} {pos : Nat} {rest : Bytes}
    (hdrop : s.drop pos = 105 :: rest) :
    decode_bencoded_value (f + 1) s pos = decode_bencoded_integer s pos := by
  have h1 : isdigit 105 = false := by decide
  have h2 : (105 : UInt8).toNat = 105 := rfl
  simp [decode_bencoded_value, charAt_of_drop hdrop, h1, h2]

theorem decode_value_l {f : Nat} {s : Bytes} {pos : Nat} {rest : Bytes}
    (hdrop : s.drop pos = 108 :: rest) (hlen : s.length < 2 ^ 63) :
    decode_bencoded_value (f + 2) s pos = decode_list_loop f s (pos + 1) [] := by
  have h1 : isdigit 108 = false := by decide
  have h2 : (108 : UInt8).toNat = 108 := rfl
  have hpos := lt_length_of_drop hdrop
  have hp : (pos + 1) % 2 ^ 64 = pos + 1 := by omega
  simp only [decode_bencoded_value, decode_bencoded_list, charAt_of_drop hdrop, h1, h2, hp]
  simp

theorem decode_value_d {f : Nat} {s : Bytes} {pos : Nat} {rest : Bytes}
    (hdrop : s.drop pos = 100 :: rest) (hlen : s.length < 2 ^ 63) :
    decode_bencoded_value (f + 2) s pos = decode_dict_loop f s (pos + 1) [] := by
  have h1 : isdigit 100 = false := by decide
  have h2 : (100 : UInt8).toNat = 100 := rfl
  have hpos := lt_length_of_drop hdrop
  have hp : (pos + 1) % 2 ^ 64 = pos + 1 := by omega
  simp only [decode_bencoded_value, decode_bencoded_dictionary, charAt_of_drop hdrop, h1, h2, hp]
  simp

theorem drop_succ_of_drop {s : Bytes} {pos : Nat} {b : UInt8} {rest : Bytes}
    (h : s.drop pos = b :: rest) : s.drop (pos + 1) = rest := by
  have := @drop_add_of_drop s pos [b] rest (by simpa using h)
  simpa using this

mutual
/-- The decoder on a well-formed encoded value at the cursor: it returns the
value the encoding stands for and leaves the cursor behind it, or throws a
`type_error` when some dictionary key in it is binary. -/
theorem decode_value_wire : ∀ (v : Wire) (f : Nat) (s : Bytes) (pos : Nat) (rest : Bytes),
    v.intsFit = true → s.drop pos = v.encode ++ rest → s.length < 2 ^ 63 →
    2 * v.encode.length ≤ f →
    decode_bencoded_value f s pos =
      if v.keysText then .ok (v.toJson, pos + v.encode.length) else .throw .type_error
  | .str k, f, s, pos, rest, _, hdrop, hlen, hf => by
    have hl := (Wire.str k).encode_length
    obtain ⟨f, rfl⟩ : ∃ g, f = g + 1 := ⟨f - 1, by omega⟩
    obtain ⟨b, t, ht, hb⟩ := natDec_head k.length
    have hdrop1 : s.drop pos = natDec k.length ++ 58 :: (k ++ rest) := by
      simpa [Wire.encode] using hdrop
    have hdrop0 : s.drop pos = b :: (t ++ 58 :: (k ++ rest)) := by rw [hdrop1, ht]; rfl
    rw [decode_value_digit hdrop0 hb, decode_bencoded_string_wire hdrop1 hlen]
    simp [Wire.keysText, Wire.toJson, Wire.encode, Nat.add_assoc]
    omega
  | .int n, f, s, pos, rest, hfit, hdrop, hlen, hf => by
    have hl := (Wire.int n).encode_length
    obtain ⟨f, rfl⟩ : ∃ g, f = g + 1 := ⟨f - 1, by omega⟩
    have hdrop1 : s.drop pos = 105 :: (intDec n ++ 101 :: rest) := by
      simpa [Wire.encode] using hdrop
    simp only [Wire.intsFit, Bool.and_eq_true, decide_eq_true_eq] at hfit
    rw [decode_value_i hdrop1, decode_bencoded_integer_wire hdrop1 hlen hfit.1 hfit.2]
    simp [Wire.keysText, Wire.toJson, Wire.encode, Nat.add_assoc]
    omega
  | .list xs, f, s, pos, rest, hfit, hdrop, hlen, hf => by
    have hl := (Wire.list xs).encode_length
    obtain ⟨f, rfl⟩ : ∃ g, f = g + 2 := ⟨f - 2, by omega⟩
    have hdrop1 : s.drop pos = 108 :: (Wire.encodeList xs ++ 101 :: rest) := by
      simpa [Wire.encode] using hdrop
    have hlenc : (Wire.list xs).encode.length = (Wire.encodeList xs).length + 2 := by
      simp [Wire.encode]
    rw [decode_value_l hdrop1 hlen,
      decode_list_wire xs f s (pos + 1) rest [] (by simpa [Wire.intsFit] using hfit)
        (drop_succ_of_drop hdrop1) hlen (by omega)]
    simp only [Wire.keysText, Wire.toJson, hlenc, List.nil_append]
    have : pos + 1 + (Wire.encodeList xs).length + 1 = pos + ((Wire.encodeList xs).length + 2) := by
      omega
    rw [this]
  | .dict kvs, f, s, pos, rest, hfit, hdrop, hlen, hf => by
    have hl := (Wire.dict kvs).encode_length
    obtain ⟨f, rfl⟩ : ∃ g, f = g + 2 := ⟨f - 2, by omega⟩
    have hdrop1 : s.drop pos = 100 :: (Wire.encodePairs kvs ++ 101 :: rest) := by
      simpa [Wire.encode] using hdrop
    have hlenc : (Wire.dict kvs).encode.length = (Wire.encodePairs kvs).length + 2 := by
      simp [Wire.encode]
    rw [decode_value_d hdrop1 hlen,
      decode_dict_wire kvs f s (pos + 1) rest [] (by simpa [Wire.intsFit] using hfit)
        (drop_succ_of_drop hdrop1) hlen (by omega)]
    simp only [Wire.keysText, Wire.toJson, hlenc]
    have : pos + 1 + (Wire.encodePairs kvs).length + 1 = pos + ((Wire.encodePairs kvs).length + 2) := by
      omega
    rw [this]
/-- The list loop on the encodings of the elements followed by `e`. -/
theorem decode_list_wire : ∀ (xs : List Wire) (f : Nat) (s : Bytes) (pos : Nat) (rest : Bytes)
    (acc : List Json),
    Wire.intsFitList xs = true → s.drop pos = Wire.encodeList xs ++ 101 :: rest →
    s.length < 2 ^ 63 → 2 * (Wire.encodeList xs).length + 1 ≤ f →
    decode_list_loop f s pos acc =
      if Wire.keysTextList xs then
        .ok (.arr (acc ++ Wire.toJsonList xs), pos + (Wire.encodeList xs).length + 1)
      else .throw .type_error
  | [], f, s, pos, rest, acc, _, hdrop, hlen, hf => by
    obtain ⟨f, rfl⟩ : ∃ g, f = g + 1 := ⟨f - 1, by omega⟩
    have hdrop1 : s.drop pos = 101 :: rest := by simpa [Wire.encodeList] using hdrop
    rw [decode_list_loop_end acc hdrop1 hlen]
    simp [Wire.keysTextList, Wire.toJsonList, Wire.encodeList]
  | x :: xs, f, s, pos, rest, acc, hfit, hdrop, hlen, hf => by
    have hl := x.encode_length
    obtain ⟨f, rfl⟩ : ∃ g, f = g + 1 := ⟨f - 1, by omega⟩
    obtain ⟨b, t, ht, _, hb⟩ := x.encode_head
    simp only [Wire.intsFitList, Bool.and_eq_true] at hfit
    have hlenc : (Wire.encodeList (x :: xs)).length = x.encode.length + (Wire.encodeList xs).length := by
      simp [Wire.encodeList]
    have hdrop1 : s.drop pos = x.encode ++ (Wire.encodeList xs ++ 101 :: rest) := by
      simpa [Wire.encodeList] using hdrop
    have hdrop0 : s.drop pos = b :: (t ++ (Wire.encodeList xs ++ 101 :: rest)) := by
      rw [hdrop1, ht]; rfl
    rw [decode_list_loop_step acc hdrop0 (not_e_of_head hb),
      decode_value_wire x f s pos _ hfit.1 hdrop1 hlen (by omega)]
    by_cases hx : x.keysText = true
    · simp only [hx, if_true, Res.bind]
      rw [decode_list_wire xs f s (pos + x.encode.length) rest (acc ++ [x.toJson]) hfit.2
        (drop_add_of_drop hdrop1) hlen (by omega)]
      simp only [Wire.keysTextList, hx, Bool.true_and, Wire.toJsonList, hlenc]
      have h1 : pos + x.encode.length + (Wire.encodeList xs).length + 1 =
          pos + (x.encode.length + (Wire.encodeList xs).length) + 1 := by omega
      simp [h1]
    · simp [hx, Res.bind, Wire.keysTextList]
/-- The dictionary loop on the encodings of the pairs followed by `e`. -/
theorem decode_dict_wire : ∀ (kvs : List (Bytes × Wire)) (f : Nat) (s : Bytes) (pos : Nat)
    (rest : Bytes) (acc : List (Bytes × Json)),
    Wire.intsFitPairs kvs = true → s.drop pos = Wire.encodePairs kvs ++ 101 :: rest →
    s.length < 2 ^ 63 → 2 * (Wire.encodePairs kvs).length + 1 ≤ f →
    decode_dict_loop f s pos acc =
      if Wire.keysTextPairs kvs then
        .ok (.obj (assign_all acc (Wire.toJsonPairs kvs)), pos + (Wire.encodePairs kvs).length + 1)
      else .throw .type_error
  | [], f, s, pos, rest, acc, _, hdrop, hlen, hf => by
    obtain ⟨f, rfl⟩ : ∃ g, f = g + 1 := ⟨f - 1, by omega⟩
    have hdrop1 : s.drop pos = 101 :: rest := by simpa [Wire.encodePairs] using hdrop
    rw [decode_dict_loop_end acc hdrop1 hlen]
    simp [Wire.keysTextPairs, Wire.toJsonPairs, Wire.encodePairs, assign_all]
  | (k, v) :: kvs, f, s, pos, rest, acc, hfit, hdrop, hlen, hf => by
    have hl := v.encode_length
    obtain ⟨f, rfl⟩ : ∃ g, f = g + 1 := ⟨f - 1, by omega⟩
    simp only [Wire.intsFitPairs, Bool.and_eq_true] at hfit
    have hlenc : (Wire.encodePairs ((k, v) :: kvs)).length =
        (natDec k.length).length + 1 + k.length + (v.encode.length + (Wire.encodePairs kvs).length) := by
      simp [Wire.encodePairs]
      omega
    have hdrop1 : s.drop pos =
        natDec k.length ++ 58 :: (k ++ (v.encode ++ (Wire.encodePairs kvs ++ 101 :: rest))) := by
      simpa [Wire.encodePairs] using hdrop
    have hdrop2 : s.drop (pos + (natDec k.length).length + 1 + k.length) =
        v.encode ++ (Wire.encodePairs kvs ++ 101 :: rest) := by
      have := @drop_add_of_drop s pos (natDec k.length ++ 58 :: k)
        (v.encode ++ (Wire.encodePairs kvs ++ 101 :: rest))
        (by simpa using hdrop1)
      have he : pos + (natDec k.length ++ 58 :: k).length =
          pos + (natDec k.length).length + 1 + k.length := by
        simp only [List.length_append, List.length_cons]
        omega
      rw [he] at this
      exact this
    rw [decode_dict_loop_step acc hdrop1 hlen,
      decode_value_wire v f s _ _ hfit.1 hdrop2 hlen (by omega)]
    by_cases hv : v.keysText = true
    · by_cases hk : is_binary_data k = true
      · simp [hv, hk, Res.bind, Wire.keysTextPairs]
      · simp only [hv, hk, if_true, if_false, Res.bind]
        rw [decode_dict_wire kvs f s _ rest (map_assign k v.toJson acc) hfit.2
          (drop_add_of_drop hdrop2) hlen (by omega)]
        simp only [Wire.keysTextPairs, hv, hk, Wire.toJsonPairs, hlenc, assign_all, List.foldl_cons]
        have h1 : pos + (natDec k.length).length + 1 + k.length + v.encode.length +
            (Wire.encodePairs kvs).length + 1 =
            pos + ((natDec k.length).length + 1 + k.length +
              (v.encode.length + (Wire.encodePairs kvs).length)) + 1 := by omega
        simp [h1]
    · simp [hv, Res.bind, Wire.keysTextPairs]
end

/-! ## The order on keys and the map -/

theorem uint8_eq_of_toNat {a b : UInt8} (h : a.toNat = b.toNat) : a = b := by
  exact UInt8.ext h

theorem bytesLt_irrefl : ∀ a : Bytes, bytesLt a a = false
  | [] => rfl
  | a :: as => by simp [bytesLt, bytesLt_irrefl as]

theorem bytesLt_asymm : ∀ a b : Bytes, bytesLt a b = true → bytesLt b a = false
  | [], [], h => by simp [bytesLt] at h
  | [], _ :: _, _ => rfl
  | _ :: _, [], h => by simp [bytesLt] at h
  | a :: as, b :: bs, h => by
    simp only [bytesLt, Bool.or_eq_true, decide_eq_true_eq, Bool.and_eq_true, beq_iff_eq] at h
    simp only [bytesLt, Bool.or_eq_false_iff, decide_eq_false_iff_not, Bool.and_eq_false_iff,
      beq_eq_false_iff_ne]
    rcases h with h | ⟨h1, h2⟩
    · exact ⟨by omega, Or.inl (by omega)⟩
    · exact ⟨by omega, Or.inr (bytesLt_asymm as bs h2)⟩

theorem bytesLt_trans : ∀ a b c : Bytes, bytesLt a b = true → bytesLt b c = true →
    bytesLt a c = true
  | [], [], _, h, _ => by simp [bytesLt] at h
  | _, _ :: _, [], _, h => by simp [bytesLt] at h
  | _ :: _, [], _, h, _ => by simp [bytesLt] at h
  | [], _ :: _, _ :: _, _, _ => rfl
  | a :: as, b :: bs, c :: cs, h1, h2 => by
    simp only [bytesLt, Bool.or_eq_true, decide_eq_true_eq, Bool.and_eq_true, beq_iff_eq] at *
    rcases h1 with h1 | ⟨h1, h1t⟩ <;> rcases h2 with h2 | ⟨h2, h2t⟩
    · exact Or.inl (by omega)
    · exact Or.inl (by omega)
    · exact Or.inl (by omega)
    · exact Or.inr ⟨by omega, bytesLt_trans as bs cs h1t h2t⟩

theorem bytesLt_total : ∀ a b : Bytes, bytesLt a b = false → bytesLt b a = false → a = b
  | [], [], _, _ => rfl
  | [], _ :: _, h, _ => by simp [bytesLt] at h
  | _ :: _, [], _, h => by simp [bytesLt] at h
  | a :: as, b :: bs, h1, h2 => by
    simp only [bytesLt, Bool.or_eq_false_iff, decide_eq_false_iff_not, Bool.and_eq_false_iff,
      beq_eq_false_iff_ne] at h1 h2
    have hab : a.toNat = b.toNat := by omega
    have ht1 : bytesLt as bs = false := by
      rcases h1.2 with h | h
      · exact absurd hab h
      · exact h
    have ht2 : bytesLt bs as = false := by
      rcases h2.2 with h | h
      · exact absurd hab.symm h
      · exact h
    rw [uint8_eq_of_toNat hab, bytesLt_total as bs ht1 ht2]

theorem mem_map_assign {key : Bytes} {value : Json} :
    ∀ (m : List (Bytes × Json)) (x : Bytes × Json),
    x ∈ map_assign key value m → x.1 = key ∨ x ∈ m
  | [], x, h => by
    simp [map_assign] at h
    exact Or.inl (by rw [h])
  | (k, v) :: rest, x, h => by
    simp only [map_assign] at h
    by_cases h1 : bytesLt key k = true
    · simp only [h1, if_true, List.mem_cons] at h
      rcases h with h | h | h
      · exact Or.inl (by rw [h])
      · exact Or.inr (by simp [h])
      · exact Or.inr (by simp [h])
    · by_cases h2 : bytesLt k key = true
      · simp only [h1, h2, Bool.false_eq_true, if_true, if_false, List.mem_cons] at h
        rcases h with h | h
        · exact Or.inr (by simp [h])
        · rcases mem_map_assign rest x h with h | h
          · exact Or.inl h
          · exact Or.inr (by simp [h])
      · simp only [h1, h2, Bool.false_eq_true, if_false, List.mem_cons] at h
        have hk : key = k := bytesLt_total key k (by simpa using h1) (by simpa using h2)
        rcases h with h | h
        · exact Or.inl (by rw [h, hk])
        · exact Or.inr (by simp [h])

/-- An assignment keeps a map in key order. -/
theorem keyOrdered_map_assign (key : Bytes) (value : Json) :
    ∀ m : List (Bytes × Json), KeyOrdered m → KeyOrdered (map_assign key value m)
  | [], _ => by simp [map_assign, KeyOrdered]
  | (k, v) :: rest, h => by
    unfold KeyOrdered at h
    rw [List.pairwise_cons] at h
    simp only [map_assign]
    by_cases h1 : bytesLt key k = true
    · simp only [h1, if_true]
      unfold KeyOrdered
      rw [List.pairwise_cons, List.pairwise_cons]
      refine ⟨?_, h.1, h.2⟩
      intro y hy
      rcases List.mem_cons.mp hy with hy | hy
      · rw [hy]; exact h1
      · exact bytesLt_trans _ _ _ h1 (h.1 y hy)
    · by_cases h2 : bytesLt k key = true
      · simp only [h1, h2, Bool.false_eq_true, if_true, if_false]
        unfold KeyOrdered
        rw [List.pairwise_cons]
        refine ⟨?_, keyOrdered_map_assign key value rest h.2⟩
        intro y hy
        rcases mem_map_assign rest y hy with hy | hy
        · rw [hy]; exact h2
        · exact h.1 y hy
      · simp only [h1, h2, Bool.false_eq_true, if_false]
        unfold KeyOrdered
        rw [List.pairwise_cons]
        exact ⟨h.1, h.2⟩

/-- Assigning a key the map does not hold adds one entry and keeps the others. -/
theorem perm_map_assign (key : Bytes) (value : Json) :
    ∀ m : List (Bytes × Json), key ∉ m.map Prod.fst →
    (map_assign key value m).Perm ((key, value) :: m)
  | [], _ => by simp [map_assign]
  | (k, v) :: rest, h => by
    simp only [List.map_cons, List.mem_cons, not_or] at h
    simp only [map_assign]
    by_cases h1 : bytesLt key k = true
    · simp [h1]
    · by_cases h2 : bytesLt k key = true
      · simp only [h1, h2, Bool.false_eq_true, if_true, if_false]
        exact ((perm_map_assign key value rest h.2).cons (k, v)).trans (List.Perm.swap _ _ _)
      · exact absurd (bytesLt_total key k (by simpa using h1) (by simpa using h2)) h.1

/-- Assigning pairs with distinct keys, none of them in the map yet, gives a
map in key order that holds the old entries and the pairs. -/
theorem assign_all_spec : ∀ (pairs acc : List (Bytes × Json)), KeyOrdered acc →
    (acc.map Prod.fst ++ pairs.map Prod.fst).Nodup →
    KeyOrdered (assign_all acc pairs) ∧ (assign_all acc pairs).Perm (acc ++ pairs)
  | [], acc, hacc, _ => by simp [assign_all, hacc]
  | (k, v) :: pairs, acc, hacc, hnd => by
    have hk : k ∉ acc.map Prod.fst := by
      intro hmem
      rw [List.nodup_append] at hnd
      exact hnd.2.2 hmem (by simp)
    have hp := perm_map_assign k v acc hk
    have hnd2 : ((map_assign k v acc).map Prod.fst ++ pairs.map Prod.fst).Nodup := by
      have hp2 : ((map_assign k v acc).map Prod.fst ++ pairs.map Prod.fst).Perm
          (acc.map Prod.fst ++ ((k, v) :: pairs).map Prod.fst) := by
        have := (hp.map Prod.fst).append_right (pairs.map Prod.fst)
        refine this.trans ?_
        simp only [List.map_cons, List.cons_append]
        exact List.perm_middle.symm
      exact hp2.nodup_iff.mpr hnd
    obtain ⟨ih1, ih2⟩ := assign_all_spec pairs (map_assign k v acc)
      (keyOrdered_map_assign k v acc hacc) hnd2
    refine ⟨ih1, ?_⟩
    have : assign_all acc ((k, v) :: pairs) = assign_all (map_assign k v acc) pairs := rfl
    rw [this]
    refine ih2.trans ?_
    refine (hp.append_right pairs).trans ?_
    simp only [List.cons_append]
    exact List.perm_middle.symm

theorem keyOrdered_perm_eq {m1 m2 : List (Bytes × Json)} (h1 : KeyOrdered m1)
    (h2 : KeyOrdered m2) (hp : m1.Perm m2) : m1 = m2 := by
  have : IsAntisymm (Bytes × Json) (fun a b => bytesLt a.1 b.1 = true) :=
    ⟨fun a b hab hba => by rw [bytesLt_asymm _ _ hab] at hba; cases hba⟩
  exact List.eq_of_perm_of_sorted hp h1 h2

/-- The map built from pairs with distinct keys does not depend on the order
in which the pairs are assigned. -/
theorem assign_all_perm {l1 l2 : List (Bytes × Json)} (hp : l1.Perm l2)
    (hnd : (l1.map Prod.fst).Nodup) : assign_all [] l1 = assign_all [] l2 := by
  have hnd2 : (l2.map Prod.fst).Nodup := (hp.map Prod.fst).nodup_iff.mp hnd
  obtain ⟨a1, a2⟩ := assign_all_spec l1 [] List.Pairwise.nil (by simpa using hnd)
  obtain ⟨b1, b2⟩ := assign_all_spec l2 [] List.Pairwise.nil (by simpa using hnd2)
  refine keyOrdered_perm_eq a1 b1 ?_
  simp only [List.nil_append] at a2 b2
  exact a2.trans (hp.trans b2.symm)

/-! ## Decoding byte-strings, integers and lists -/

theorem is_binary_data_eq_all (s : Bytes) :
    is_binary_data s = !(s.all (fun b => isprint b || isspace b)) := by
  induction s with
  | nil => rfl
  | cons b bs ih =>
    simp only [is_binary_data, List.all_cons, ih]
    cases isprint b <;> cases isspace b <;> simp

/-- C7: for every byte sequence `s` (any byte values), decoding
`<decimal length of s>:<s>` from cursor 0 returns a byte-string value holding
exactly the bytes of `s`, a text value when every byte is printable or white
space and a binary value otherwise, and leaves the cursor at the end of the
input. The input is a `std::string`, so its length is below `2 ^ 63`. -/
theorem decode_byte_string (s : Bytes) (fuel : Nat)
    (hlen : (natDec s.length ++ 58 :: s).length < 2 ^ 63) :
    decode_bencoded_value (fuel + 1) (natDec s.length ++ 58 :: s) 0 =
      .ok (if s.all (fun b => isprint b || isspace b) then Json.str s else Json.bin s,
        (natDec s.length ++ 58 :: s).length) := by
  obtain ⟨b, t, ht, hb⟩ := natDec_head s.length
  have hdrop : (natDec s.length ++ 58 :: s).drop 0 = natDec s.length ++ 58 :: (s ++ []) := by
    simp
  have hdrop0 : (natDec s.length ++ 58 :: s).drop 0 = b :: (t ++ 58 :: s) := by
    rw [List.drop_zero, ht]; rfl
  rw [decode_value_digit hdrop0 hb, decode_bencoded_string_wire hdrop hlen,
    is_binary_data_eq_all]
  have hl : 0 + (natDec s.length).length + 1 + s.length = (natDec s.length ++ 58 :: s).length := by
    simp only [List.length_append, List.length_cons]
    omega
  rw [hl]
  cases s.all (fun b => isprint b || isspace b) <;> rfl

/-- Witness of C7: `4:spam` decodes to the text value `spam`, cursor 6. -/
theorem decode_byte_string_witness :
    (natDec (bytes "spam").length ++ 58 :: bytes "spam").length < 2 ^ 63 ∧
    decode_bencoded_value 1 (bytes "4:spam") 0 = .ok (Json.str (bytes "spam"), 6) :=
  ⟨by decide, decode_byte_string (bytes "spam") 0 (by decide)⟩

theorem natDec_length_le : ∀ (k n : Nat), n < 10 ^ (k + 1) → (natDec n).length ≤ k + 1 := by
  intro k
  induction k with
  | zero =>
    intro n h
    rw [natDec_small (by simpa using h)]
    simp
  | succ k ih =>
    intro n h
    by_cases hn : n < 10
    · rw [natDec_small hn]; simp
    · rw [natDec_big (by omega)]
      have h2 : n / 10 < 10 ^ (k + 1) := by
        rw [Nat.div_lt_iff_lt_mul (by decide)]
        rw [Nat.pow_succ] at h
        exact h
      have := ih (n / 10) h2
      simp only [List.length_append, List.length_singleton]
      omega

theorem intDec_length_le {n : Int} (hlo : -(2 ^ 63) ≤ n) (hhi : n < 2 ^ 63) :
    (intDec n).length ≤ 20 := by
  unfold intDec
  split
  · have := natDec_length_le 18 n.natAbs (by omega)
    simp only [List.length_cons]
    omega
  · have := natDec_length_le 18 n.toNat (by omega)
    omega

/-- C8: for every signed 64-bit integer `n`, decoding `i`, the decimal form of
`n` (with a minus sign when negative) and `e` from cursor 0 returns the integer
`n` and leaves the cursor at the end of the input. -/
theorem decode_integer (n : Int) (fuel : Nat) (hlo : -(2 ^ 63) ≤ n) (hhi : n < 2 ^ 63) :
    decode_bencoded_value (fuel + 1) (105 :: (intDec n ++ [101])) 0 =
      .ok (Json.int n, (105 :: (intDec n ++ [101])).length) := by
  have hl := intDec_length_le hlo hhi
  have hdrop : (105 :: (intDec n ++ [101])).drop 0 = 105 :: (intDec n ++ 101 :: []) := by simp
  have hlen : (105 :: (intDec n ++ [101])).length < 2 ^ 63 := by
    simp only [List.length_cons, List.length_append, List.length_nil]
    omega
  rw [decode_value_i hdrop, decode_bencoded_integer_wire hdrop hlen hlo hhi]
  simp only [List.length_cons, List.length_append, List.length_nil]
  congr 2
  omega

/-- Witness of C8: `i52e` decodes to 52 and `i-7e` to -7, the cursor at the
end of the input. -/
theorem decode_integer_witness :
    (-(2 ^ 63) ≤ (52 : Int) ∧ (52 : Int) < 2 ^ 63 ∧ -(2 ^ 63) ≤ (-7 : Int) ∧ (-7 : Int) < 2 ^ 63) ∧
    decode_bencoded_value 1 (bytes "i52e") 0 = .ok (Json.int 52, 4) ∧
    decode_bencoded_value 1 (bytes "i-7e") 0 = .ok (Json.int (-7), 4) := by
  have h1 := decode_integer 52 0 (by decide) (by decide)
  have h2 := decode_integer (-7) 0 (by decide) (by decide)
  exact ⟨by decide, h1, h2⟩

theorem Wire.encodeList_eq_flatMap : ∀ xs : List Wire, Wire.encodeList xs = xs.flatMap Wire.encode
  | [] => rfl
  | x :: xs => by simp [Wire.encodeList, Wire.encodeList_eq_flatMap xs]

theorem Wire.toJsonList_eq_map : ∀ xs : List Wire, Wire.toJsonList xs = xs.map Wire.toJson
  | [] => rfl
  | x :: xs => by simp [Wire.toJsonList, Wire.toJsonList_eq_map xs]

mutual
theorem Wire.keysText_of_dictFree : ∀ v : Wire, v.dictFree = true → v.keysText = true
  | .str _, _ => rfl
  | .int _, _ => rfl
  | .list xs, h => by
    simp only [Wire.dictFree] at h
    simp only [Wire.keysText]
    exact Wire.keysTextList_of_dictFree xs h
  | .dict _, h => by simp [Wire.dictFree] at h
theorem Wire.keysTextList_of_dictFree : ∀ xs : List Wire,
    Wire.dictFreeList xs = true → Wire.keysTextList xs = true
  | [], _ => rfl
  | x :: xs, h => by
    simp only [Wire.dictFreeList, Bool.and_eq_true] at h
    simp only [Wire.keysTextList, Bool.and_eq_true]
    exact ⟨Wire.keysText_of_dictFree x h.1, Wire.keysTextList_of_dictFree xs h.2⟩
end

/-- C9: for every finite sequence `vs` of values built from byte-strings,
64-bit integers and lists of these, decoding `l`, the standard encodings of
the values in order and `e`, found at the cursor `pos` of a buffer, returns
the array of the decoded values in the same order and leaves the cursor just
behind the closing `e`. -/
theorem decode_list_elements (vs : List Wire) (fuel : Nat) (s : Bytes) (pos : Nat) (rest : Bytes)
    (hfree : Wire.dictFreeList vs = true) (hfit : Wire.intsFitList vs = true)
    (hdrop : s.drop pos = 108 :: (vs.flatMap Wire.encode ++ 101 :: rest))
    (hlen : s.length < 2 ^ 63) (hfuel : 2 * s.length ≤ fuel) :
    decode_bencoded_value fuel s pos =
      .ok (Json.arr (vs.map Wire.toJson), pos + (vs.flatMap Wire.encode).length + 2) := by
  have henc : (Wire.list vs).encode = 108 :: (vs.flatMap Wire.encode ++ [101]) := by
    simp [Wire.encode, Wire.encodeList_eq_flatMap]
  have hdrop1 : s.drop pos = (Wire.list vs).encode ++ rest := by
    rw [henc, hdrop]; simp
  have htot := length_of_drop hdrop1 (by rw [henc]; simp)
  have hk : (Wire.list vs).keysText = true := by
    simp only [Wire.keysText]
    exact Wire.keysTextList_of_dictFree vs hfree
  rw [decode_value_wire (Wire.list vs) fuel s pos rest (by simpa [Wire.intsFit] using hfit)
    hdrop1 hlen (by omega), hk]
  simp only [if_true, Wire.toJson, Wire.toJsonList_eq_map, henc, List.length_cons,
    List.length_append, List.length_singleton]
  congr 2

/-- Witness of C9: `l4:spam4:eggse` decodes to the array of `spam` and `eggs`,
cursor 14. -/
theorem decode_list_elements_witness :
    (Wire.dictFreeList [Wire.str (bytes "spam"), Wire.str (bytes "eggs")] = true ∧
      Wire.intsFitList [Wire.str (bytes "spam"), Wire.str (bytes "eggs")] = true ∧
      (bytes "l4:spam4:eggse").length < 2 ^ 63 ∧ 2 * (bytes "l4:spam4:eggse").length ≤ 28) ∧
    decode_bencoded_value 28 (bytes "l4:spam4:eggse") 0 =
      .ok (Json.arr [Json.str (bytes "spam"), Json.str (bytes "eggs")], 14) :=
  ⟨by decide, decode_list_elements [Wire.str (bytes "spam"), Wire.str (bytes "eggs")] 28
    (bytes "l4:spam4:eggse") 0 [] (by decide) (by decide) (by decide) (by decide) (by decide)⟩

/-! ## Independence of the key order of the input -/

/-- Decoding a whole well-formed buffer from cursor 0. -/
theorem decode_wire (v : Wire) (fuel : Nat) (hfit : v.intsFit = true)
    (hlen : v.encode.length < 2 ^ 63) (hfuel : 2 * v.encode.length ≤ fuel) :
    decode fuel v.encode = if v.keysText then .ok v.toJson else .throw .type_error := by
  unfold decode
  rw [decode_value_wire v fuel v.encode 0 [] hfit (by simp) hlen hfuel]
  cases v.keysText <;> rfl

theorem Wire.encodePairs_eq_flatMap : ∀ kvs : List (Bytes × Wire),
    Wire.encodePairs kvs =
      kvs.flatMap (fun kv => (natDec kv.1.length ++ 58 :: kv.1) ++ kv.2.encode)
  | [] => rfl
  | (k, v) :: rest => by simp [Wire.encodePairs, Wire.encodePairs_eq_flatMap rest]

theorem Wire.toJsonPairs_eq_map : ∀ kvs : List (Bytes × Wire),
    Wire.toJsonPairs kvs = kvs.map (fun kv => (kv.1, kv.2.toJson))
  | [] => rfl
  | (k, v) :: rest => by simp [Wire.toJsonPairs, Wire.toJsonPairs_eq_map rest]

theorem Wire.keysTextPairs_eq_all : ∀ kvs : List (Bytes × Wire),
    Wire.keysTextPairs kvs = kvs.all (fun kv => !is_binary_data kv.1 && kv.2.keysText)
  | [] => rfl
  | (k, v) :: rest => by
    simp [Wire.keysTextPairs, Wire.keysTextPairs_eq_all rest, Bool.and_assoc]

theorem Wire.intsFitPairs_eq_all : ∀ kvs : List (Bytes × Wire),
    Wire.intsFitPairs kvs = kvs.all (fun kv => kv.2.intsFit)
  | [] => rfl
  | (k, v) :: rest => by simp [Wire.intsFitPairs, Wire.intsFitPairs_eq_all rest]

theorem all_eq_of_perm {α : Type} {l1 l2 : List α} (p : α → Bool) (h : l1.Perm l2) :
    l1.all p = l2.all p := by
  rw [Bool.eq_iff_iff, List.all_eq_true, List.all_eq_true]
  exact ⟨fun hx x hm => hx x (h.mem_iff.mpr hm), fun hx x hm => hx x (h.mem_iff.mp hm)⟩

/-- C5: two encoded dictionaries that list the same key/value pairs, with
distinct keys, in different orders decode to the same value, so decoding
followed by `bencode_info_dict` gives the same result for both, byte for byte,
and `calculate_info_hash` the same digest. The decoded value is the map of the
pairs, or a `type_error` from both when some key is binary. -/
theorem reencode_key_order (kvs1 kvs2 : List (Bytes × Wire)) (fuel : Nat)
    (SHA1 : Bytes → Fin 20 → UInt8)
    (hperm : kvs1.Perm kvs2) (hnodup : (kvs1.map Prod.fst).Nodup)
    (hfit : Wire.intsFitPairs kvs1 = true)
    (hlen : (Wire.dict kvs1).encode.length < 2 ^ 63)
    (hfuel : 2 * (Wire.dict kvs1).encode.length ≤ fuel) :
    decode fuel (Wire.dict kvs1).encode =
        (if Wire.keysTextPairs kvs1 then .ok (Wire.dict kvs1).toJson else .throw .type_error) ∧
      decode fuel (Wire.dict kvs2).encode = decode fuel (Wire.dict kvs1).encode ∧
      reencode fuel (Wire.dict kvs2).encode = reencode fuel (Wire.dict kvs1).encode ∧
      reencode_hash SHA1 fuel (Wire.dict kvs2).encode =
        reencode_hash SHA1 fuel (Wire.dict kvs1).encode := by
  have hl : (Wire.dict kvs2).encode.length = (Wire.dict kvs1).encode.length := by
    simp only [Wire.encode, Wire.encodePairs_eq_flatMap, List.length_cons, List.length_append]
    rw [(hperm.flatMap_right _).length_eq]
  have hfit2 : Wire.intsFitPairs kvs2 = true := by
    rw [Wire.intsFitPairs_eq_all, ← all_eq_of_perm _ hperm, ← Wire.intsFitPairs_eq_all]
    exact hfit
  have hk : Wire.keysTextPairs kvs2 = Wire.keysTextPairs kvs1 := by
    rw [Wire.keysTextPairs_eq_all, Wire.keysTextPairs_eq_all, all_eq_of_perm _ hperm]
  have hj : (Wire.dict kvs2).toJson = (Wire.dict kvs1).toJson := by
    simp only [Wire.toJson, Wire.toJsonPairs_eq_map]
    congr 1
    refine (assign_all_perm (hperm.map _) ?_).symm
    rw [List.map_map]
    exact hnodup
  have h1 := decode_wire (Wire.dict kvs1) fuel (by simpa [Wire.intsFit] using hfit) hlen hfuel
  have h2 := decode_wire (Wire.dict kvs2) fuel (by simpa [Wire.intsFit] using hfit2)
    (by omega) (by omega)
  simp only [Wire.keysText] at h1 h2
  have hd : decode fuel (Wire.dict kvs2).encode = decode fuel (Wire.dict kvs1).encode := by
    rw [h2, h1]
    simp only [hk, hj]
  refine ⟨h1, hd, ?_, ?_⟩
  · unfold reencode
    rw [hd]
  · unfold reencode_hash reencode
    rw [hd]

/-- Witness of C5: `d3:cow3:moo4:spam4:eggse` and `d4:spam4:eggs3:cow3:mooe`. -/
theorem reencode_key_order_witness :
    ([(bytes "cow", Wire.str (bytes "moo")), (bytes "spam", Wire.str (bytes "eggs"))].Perm
        [(bytes "spam", Wire.str (bytes "eggs")), (bytes "cow", Wire.str (bytes "moo"))] ∧
      ([(bytes "cow", Wire.str (bytes "moo")),
        (bytes "spam", Wire.str (bytes "eggs"))].map Prod.fst).Nodup) ∧
    reencode 48 (bytes "d4:spam4:eggs3:cow3:mooe") = reencode 48 (bytes "d3:cow3:moo4:spam4:eggse") ∧
    reencode_hash (fun _ _ => 0) 48 (bytes "d4:spam4:eggs3:cow3:mooe") =
      reencode_hash (fun _ _ => 0) 48 (bytes "d3:cow3:moo4:spam4:eggse") := by
  have hp : [(bytes "cow", Wire.str (bytes "moo")), (bytes "spam", Wire.str (bytes "eggs"))].Perm
      [(bytes "spam", Wire.str (bytes "eggs")), (bytes "cow", Wire.str (bytes "moo"))] :=
    List.Perm.swap _ _ _
  have hn : ([(bytes "cow", Wire.str (bytes "moo")),
      (bytes "spam", Wire.str (bytes "eggs"))].map Prod.fst).Nodup := by decide
  have h := reencode_key_order _ _ 48 (fun _ _ => 0) hp hn (by decide) (by decide) (by decide)
  exact ⟨⟨hp, hn⟩, h.2.2.1, h.2.2.2⟩

/-! ## More fuel does not change an outcome -/

theorem Res.bind_ne_outOfFuel {α β : Type} {r : Res α} {f : α → Res β}
    (h : r.bind f ≠ .outOfFuel) : r ≠ .outOfFuel := by
  intro hr
  rw [hr] at h
  exact h rfl

/-- One more unit of fuel leaves every outcome other than `outOfFuel` as it
is, for the five functions of the decoder at once. -/
theorem decode_fuel_succ (f : Nat) :
    (∀ s p, decode_bencoded_value f s p ≠ .outOfFuel →
      decode_bencoded_value (f + 1) s p = decode_bencoded_value f s p) ∧
    (∀ s p, decode_bencoded_list f s p ≠ .outOfFuel →
      decode_bencoded_list (f + 1) s p = decode_bencoded_list f s p) ∧
    (∀ s p acc, decode_list_loop f s p acc ≠ .outOfFuel →
      decode_list_loop (f + 1) s p acc = decode_list_loop f s p acc) ∧
    (∀ s p, decode_bencoded_dictionary f s p ≠ .outOfFuel →
      decode_bencoded_dictionary (f + 1) s p = decode_bencoded_dictionary f s p) ∧
    (∀ s p acc, decode_dict_loop f s p acc ≠ .outOfFuel →
      decode_dict_loop (f + 1) s p acc = decode_dict_loop f s p acc) := by
  induction f with
  | zero =>
    refine ⟨?_, ?_, ?_, ?_, ?_⟩ <;> intros <;> rename_i h <;> exact absurd rfl h
  | succ f ih =>
    obtain ⟨ihv, ihl, ihll, ihd, ihdl⟩ := ih
    refine ⟨?_, ?_, ?_, ?_, ?_⟩
    · intro s p h
      rw [decode_bencoded_value] at h
      rw [decode_bencoded_value, decode_bencoded_value]
      cases hc : charAt s p with
      | none => rfl
      | some c =>
        simp only [hc] at h ⊢
        by_cases h1 : isdigit c = true
        · simp only [h1, if_true]
        · by_cases h2 : c.toNat = 105
          · simp only [h1, h2, if_true, if_false, Bool.false_eq_true]
          · by_cases h3 : c.toNat = 108
            · simp only [h1, h2, h3, if_true, if_false, Bool.false_eq_true] at h ⊢
              exact ihl s p h
            · by_cases h4 : c.toNat = 100
              · simp only [h1, h2, h3, h4, if_true, if_false, Bool.false_eq_true] at h ⊢
                exact ihd s p h
              · simp only [h1, h2, h3, h4, if_false, Bool.false_eq_true]
    · intro s p h
      rw [decode_bencoded_list] at h
      rw [decode_bencoded_list, decode_bencoded_list]
      exact ihll s _ _ h
    · intro s p acc h
      rw [decode_list_loop] at h
      rw [decode_list_loop, decode_list_loop]
      by_cases hp : p < s.length
      · simp only [hp, if_true] at h ⊢
        cases hc : charAt s p with
        | none => rfl
        | some c =>
          simp only [hc] at h ⊢
          by_cases he : c.toNat = 101
          · simp only [he, if_true]
          · simp only [he, if_false] at h ⊢
            cases hv : decode_bencoded_value f s p with
            | ok r =>
              obtain ⟨v, p1⟩ := r
              rw [hv] at h
              rw [ihv s p (by rw [hv]; simp), hv]
              exact ihll s p1 _ h
            | throw x => rw [ihv s p (by rw [hv]; simp), hv]
            | undefined => rw [ihv s p (by rw [hv]; simp), hv]
            | outOfFuel => rw [hv] at h; exact absurd rfl h
      · simp only [hp, if_false]
    · intro s p h
      rw [decode_bencoded_dictionary] at h
      rw [decode_bencoded_dictionary, decode_bencoded_dictionary]
      exact ihdl s _ _ h
    · intro s p acc h
      rw [decode_dict_loop] at h
      rw [decode_dict_loop, decode_dict_loop]
      by_cases hp : p < s.length
      · simp only [hp, if_true] at h ⊢
        cases hc : charAt s p with
        | none => rfl
        | some c =>
          simp only [hc] at h ⊢
          by_cases he : c.toNat = 101
          · simp only [he, if_true]
          · simp only [he, if_false] at h ⊢
            cases hk : decode_bencoded_string s p with
            | ok r =>
              obtain ⟨key, p1⟩ := r
              simp only [hk] at h ⊢
              cases hv : decode_bencoded_value f s p1 with
              | ok r2 =>
                obtain ⟨v, p2⟩ := r2
                rw [hv] at h
                rw [ihv s p1 (by rw [hv]; simp), hv]
                cases key with
                | str k => exact ihdl s p2 _ h
                | null => rfl
                | int n => rfl
                | arr xs => rfl
                | obj kvs => rfl
                | bin b => rfl
              | throw x => rw [ihv s p1 (by rw [hv]; simp), hv]
              | undefined => rw [ihv s p1 (by rw [hv]; simp), hv]
              | outOfFuel => rw [hv] at h; exact absurd rfl h
            | throw x => rfl
            | undefined => rfl
            | outOfFuel => rfl
      · simp only [hp, if_false]

/-- An outcome other than `outOfFuel` is the outcome for every larger fuel. -/
theorem decode_fuel_mono (f n : Nat) (s : Bytes) (p : Nat)
    (h : decode_bencoded_value f s p ≠ .outOfFuel) :
    decode_bencoded_value (f + n) s p = decode_bencoded_value f s p := by
  induction n with
  | zero => rfl
  | succ n ih =>
    rw [← Nat.add_assoc, (decode_fuel_succ (f + n)).1 s p (by rw [ih]; exact h), ih]

theorem decode_mono (f n : Nat) (s : Bytes) (h : decode f s ≠ .outOfFuel) :
    decode (f + n) s = decode f s := by
  have h1 : decode_bencoded_value f s 0 ≠ .outOfFuel := by
    intro hc
    apply h
    simp [decode, hc]
  simp only [decode, decode_fuel_mono f n s 0 h1]

/-! ## What the re-encoder writes for text, wide integers and lists -/

theorem reencode_mono (f n : Nat) (s : Bytes) (h : decode f s ≠ .outOfFuel) :
    reencode (f + n) s = reencode f s := by
  unfold reencode
  rw [decode_mono f n s h]

/-- C1 (the code differs): the dictionary `d3:cow3:moo4:spam4:eggse` is
decoded and then re-encoded as `d3:cow3:"moo"4:spam4:"eggs"e`: the text values
come out as JSON text, between double quotes (byte 34), because line 162
streams the `json` value itself. The result is not the input. -/
theorem reencode_cow_spam (n : Nat) :
    reencode (n + 5) (bytes "d3:cow3:moo4:spam4:eggse") =
        .ok (bytes "d3:cow3:" ++ [34] ++ bytes "moo" ++ [34] ++ bytes "4:spam4:" ++ [34] ++
          bytes "eggs" ++ [34] ++ bytes "e") ∧
      reencode (n + 5) (bytes "d3:cow3:moo4:spam4:eggse") ≠
        .ok (bytes "d3:cow3:moo4:spam4:eggse") := by
  have h : reencode (5 + n) (bytes "d3:cow3:moo4:spam4:eggse") =
      reencode 5 (bytes "d3:cow3:moo4:spam4:eggse") :=
    reencode_mono 5 n _ (by decide)
  rw [Nat.add_comm n 5, h]
  exact ⟨by decide, by decide⟩

/-- C2 (the code differs): the dictionary that maps `cow` to the text `moo` is
encoded as `d3:cow3:"moo"e`, and decoding these bytes throws instead of giving
the dictionary back: the length 3 covers `"mo`, and `o"e` is then read as a
key without a colon. -/
theorem bencode_then_decode_text (n : Nat) :
    bencode_info_dict (.obj [(bytes "cow", .str (bytes "moo"))]) =
        .ok (bytes "d3:cow3:" ++ [34] ++ bytes "moo" ++ [34] ++ bytes "e") ∧
      decode (n + 4) (bytes "d3:cow3:" ++ [34] ++ bytes "moo" ++ [34] ++ bytes "e") =
        .throw .runtime_error := by
  have h := decode_mono 4 n (bytes "d3:cow3:" ++ [34] ++ bytes "moo" ++ [34] ++ bytes "e")
    (by decide)
  rw [Nat.add_comm n 4, h]
  exact ⟨by decide, by decide⟩

/-- C3 (the code differs): the integer 5000000000 stored under `length` is
written as `i705032704e`, its value modulo `2 ^ 32`, because line 166 reads it
with `get<int>()`; decoding and re-encoding `d6:lengthi5000000000ee` changes
the number. -/
theorem bencode_wide_integer (n : Nat) :
    bencode_info_dict (.obj [(bytes "length", .int 5000000000)]) =
        .ok (bytes "d6:lengthi705032704ee") ∧
      reencode (n + 4) (bytes "d6:lengthi5000000000ee") = .ok (bytes "d6:lengthi705032704ee") := by
  have h := reencode_mono 4 n (bytes "d6:lengthi5000000000ee") (by decide)
  rw [Nat.add_comm n 4, h]
  exact ⟨by decide, by decide⟩

/-- C4 (the code differs): a list holding an integer makes `bencode_info_dict`
throw a `type_error`, because line 173 reads every item with
`get<std::string>()`; the same holds for a list holding a list, a dictionary
or a binary string, and a list of text items is written with the items
between double quotes. -/
theorem bencode_list_items (n : Nat) :
    bencode_info_dict (.obj [(bytes "a", .arr [.int 1])]) = .throw .type_error ∧
      reencode (n + 7) (bytes "d1:ali1eee") = .throw .type_error ∧
      bencode_info_dict (.obj [(bytes "a", .arr [.arr []])]) = .throw .type_error ∧
      bencode_info_dict (.obj [(bytes "a", .arr [.obj []])]) = .throw .type_error ∧
      bencode_info_dict (.obj [(bytes "a", .arr [.bin [0]])]) = .throw .type_error ∧
      bencode_info_dict (.obj [(bytes "a", .arr [.str (bytes "b")])]) =
        .ok (bytes "d1:al1:" ++ [34] ++ bytes "b" ++ [34] ++ bytes "ee") := by
  have h := reencode_mono 7 n (bytes "d1:ali1eee") (by decide)
  rw [Nat.add_comm n 7, h]
  exact ⟨by decide, by decide, by decide, by decide, by decide, by decide⟩

/-- C10 (the code differs): on `5:abc`, where the declared length is 5 and 3
bytes follow the colon, the decoder returns the 3-byte string `abc` and moves
the cursor to 7, two past the end of the 5-byte buffer; it does not fail. -/
theorem decode_short_payload (n : Nat) :
    decode_bencoded_value (n + 1) (bytes "5:abc") 0 = .ok (.str (bytes "abc"), 7) := by
  have h := decode_fuel_mono 1 n (bytes "5:abc") 0 (by decide)
  rw [Nat.add_comm n 1, h]
  rfl

/-- The other half of C10 holds: a value that starts with a digit and has no
`:` up to the end of the buffer makes the decoder throw. -/
theorem decode_no_colon (fuel : Nat) (s : Bytes) (pos : Nat) (b : UInt8) (rest : Bytes)
    (hdrop : s.drop pos = b :: rest) (hb : isdigit b = true)
    (hcolon : ∀ c ∈ b :: rest, c.toNat ≠ 58) :
    decode_bencoded_value (fuel + 1) s pos = .throw .runtime_error := by
  have hnone : ∀ l : Bytes, (∀ c ∈ l, c.toNat ≠ 58) → findIdx 58 l = none := by
    intro l
    induction l with
    | nil => intro _; rfl
    | cons c l ih =>
      intro h
      have hc : c.toNat ≠ 58 := h c (by simp)
      simp [findIdx, hc, ih (fun d hd => h d (by simp [hd]))]
  rw [decode_value_digit hdrop hb]
  unfold decode_bencoded_string find
  rw [hdrop, hnone _ hcolon]
  rfl

/-! ## The keys of the output are in ascending order -/

theorem Res.bind_eq_ok {α β : Type} {r : Res α} {f : α → Res β} {b : β}
    (h : r.bind f = .ok b) : ∃ a, r = .ok a ∧ f a = .ok b := by
  cases r with
  | ok a => exact ⟨a, rfl, h⟩
  | throw x => cases h
  | undefined => cases h
  | outOfFuel => cases h

theorem bytesLe_total : IsTotal Bytes bytesLe :=
  ⟨fun a b => by
    unfold bytesLe
    by_cases h : bytesLt b a = true
    · exact Or.inr (bytesLt_asymm b a h)
    · exact Or.inl (by simpa using h)⟩

theorem bytesLe_trans : IsTrans Bytes bytesLe :=
  ⟨fun a b c hab hbc => by
    unfold bytesLe at *
    by_contra hca
    have hca1 : bytesLt c a = true := by simpa using hca
    by_cases h : bytesLt a b = true
    · rw [bytesLt_trans c a b hca1 h] at hbc
      cases hbc
    · have : a = b := bytesLt_total a b (by simpa using h) hab
      subst this
      rw [hca1] at hbc
      cases hbc⟩

/-- The sorted keys are strictly ascending when no key occurs twice, and they
are the keys of the map, each once. -/
theorem sort_keys_spec (keys : List Bytes) (hnd : keys.Nodup) :
    (sort_keys keys).Pairwise (fun a b => bytesLt a b = true) ∧ (sort_keys keys).Perm keys := by
  haveI := bytesLe_total
  haveI := bytesLe_trans
  have hs : (sort_keys keys).Pairwise bytesLe := List.sorted_insertionSort bytesLe keys
  have hp : (sort_keys keys).Perm keys := List.perm_insertionSort bytesLe keys
  have hn : (sort_keys keys).Pairwise (fun a b => a ≠ b) := hp.nodup_iff.mpr hnd
  refine ⟨?_, hp⟩
  refine (hs.and hn).imp ?_
  intro a b hab
  by_contra hlt
  exact hab.2 (bytesLt_total a b (by simpa using hlt) hab.1)

/-- The order of the entries by their keys. -/
theorem sort_entries (kvs : List (Bytes × Json)) :
    (kvs.insertionSort (fun a b => bytesLe a.1 b.1)).map Prod.fst = sort_keys (kvs.map Prod.fst) :=
  List.map_insertionSort (fun a b => bytesLe a.1 b.1) bytesLe Prod.fst kvs
    (fun _ _ _ _ => Iff.rfl)

theorem lookup_emit_values : ∀ (kvs : List (Bytes × Json)) (k : Bytes) (v : Json),
    (kvs.map Prod.fst).Nodup → (k, v) ∈ kvs →
    lookup_entry k (emit_values kvs) = emit_value v
  | [], _, _, _, h => by cases h
  | (k0, v0) :: rest, k, v, hnd, hmem => by
    simp only [List.map_cons, List.nodup_cons] at hnd
    simp only [emit_values, lookup_entry]
    rcases List.mem_cons.mp hmem with h | h
    · cases h
      simp
    · have hk : k ∈ rest.map Prod.fst := List.mem_map.mpr ⟨(k, v), h, rfl⟩
      have hne : k0 ≠ k := by
        intro e
        rw [e] at hnd
        exact hnd.1 hk
      simp only [hne, if_false]
      exact lookup_emit_values rest k v hnd.2 h

theorem emit_entries_layout (table : List (Bytes × Res Bytes)) :
    ∀ (l : List (Bytes × Json)), (∀ kv ∈ l, lookup_entry kv.1 table = emit_value kv.2) →
    ∀ body, emit_entries table (l.map Prod.fst) = .ok body →
    ∃ entries : List (Bytes × Json × Bytes),
      entries.map (fun e => (e.1, e.2.1)) = l ∧
      (∀ e ∈ entries, emit_value e.2.1 = .ok e.2.2) ∧
      body = entries.flatMap (fun e => natDec e.1.length ++ [58] ++ e.1 ++ e.2.2)
  | [], _, body, h => by
    simp only [List.map_nil, emit_entries] at h
    cases h
    exact ⟨[], rfl, by simp, rfl⟩
  | (k, v) :: rest, hl, body, h => by
    simp only [List.map_cons, emit_entries] at h
    obtain ⟨vb, h1, h2⟩ := Res.bind_eq_ok h
    obtain ⟨tail, h3, h4⟩ := Res.bind_eq_ok h2
    cases h4
    rw [hl (k, v) (by simp)] at h1
    obtain ⟨entries, e1, e2, e3⟩ :=
      emit_entries_layout table rest (fun kv hkv => hl kv (by simp [hkv])) tail h3
    refine ⟨(k, v, vb) :: entries, by simp [e1], ?_, by simp [e3]⟩
    intro e he
    rcases List.mem_cons.mp he with he | he
    · rw [he]; exact h1
    · exact e2 e he

mutual
theorem layout_value : ∀ (v : Json) (vb : Bytes), v.distinctKeys → emit_value v = .ok vb →
    AscendingLayout v vb
  | .null, vb, _, _ => AscendingLayout.other _ _ (by intro kvs h; cases h)
  | .str _, vb, _, _ => AscendingLayout.other _ _ (by intro kvs h; cases h)
  | .int _, vb, _, _ => AscendingLayout.other _ _ (by intro kvs h; cases h)
  | .arr _, vb, _, _ => AscendingLayout.other _ _ (by intro kvs h; cases h)
  | .bin _, vb, _, _ => AscendingLayout.other _ _ (by intro kvs h; cases h)
  | .obj kvs, vb, hd, h => by
    simp only [Json.distinctKeys] at hd
    simp only [emit_value, write_dict] at h
    obtain ⟨body, h1, h2⟩ := Res.bind_eq_ok h
    cases h2
    rw [← sort_entries kvs] at h1
    have hperm := List.perm_insertionSort (fun a b : Bytes × Json => bytesLe a.1 b.1) kvs
    obtain ⟨entries, e1, e2, e3⟩ := emit_entries_layout (emit_values kvs) _
      (fun kv hkv => lookup_emit_values kvs kv.1 kv.2 hd.1 (hperm.mem_iff.mp hkv)) body h1
    rw [e3]
    refine AscendingLayout.dict kvs entries ?_ ?_ ?_
    · have hk : entries.map (fun e => e.1) = sort_keys (kvs.map Prod.fst) := by
        rw [← sort_entries kvs, ← e1, List.map_map]
        rfl
      rw [hk]
      exact (sort_keys_spec _ hd.1).1
    · rw [e1]
      exact hperm
    · intro e he
      have hmem : (e.1, e.2.1) ∈ kvs := by
        apply hperm.mem_iff.mp
        rw [← e1]
        exact List.mem_map.mpr ⟨e, he, rfl⟩
      exact layout_members kvs hd.2 (e.1, e.2.1) hmem e.2.2 (e2 e he)
theorem layout_members : ∀ (kvs : List (Bytes × Json)), Json.distinctKeysMembers kvs →
    ∀ kv ∈ kvs, ∀ vb, emit_value kv.2 = .ok vb → AscendingLayout kv.2 vb
  | [], _, _, h, _, _ => by cases h
  | (k, v) :: rest, hd, kv, hmem, vb, h => by
    simp only [Json.distinctKeysMembers] at hd
    rcases List.mem_cons.mp hmem with hm | hm
    · rw [hm] at h ⊢
      exact layout_value v vb hd.1 h
    · exact layout_members rest hd.2 kv hm vb h
end

/-- C6: for every dictionary given to `bencode_info_dict`, a `std::map` and so
without a repeated key at any level, the output lists the keys in strictly
ascending order of their unsigned byte values, each key exactly once, at every
nesting level of dictionaries: see `AscendingLayout`. -/
theorem keys_ascending (kvs : List (Bytes × Json)) (out : Bytes)
    (hkeys : (Json.obj kvs).distinctKeys)
    (hout : bencode_info_dict (.obj kvs) = .ok out) :
    AscendingLayout (.obj kvs) out :=
  layout_value (.obj kvs) out hkeys (by simpa [emit_value, bencode_info_dict] using hout)

/-- Witness of C6: a map given with `spam` before `cow`, whose value under
`cow` is a map given with `b` before `a`, is written as
`d3:cowd1:a1:<byte 0>1:bi2ee4:spami1ee`. -/
theorem keys_ascending_witness :
    (Json.obj [(bytes "spam", .int 1),
        (bytes "cow", .obj [(bytes "b", .int 2), (bytes "a", .bin [0])])]).distinctKeys ∧
      bencode_info_dict (.obj [(bytes "spam", .int 1),
        (bytes "cow", .obj [(bytes "b", .int 2), (bytes "a", .bin [0])])]) =
        .ok (bytes "d3:cowd1:a1:" ++ [0] ++ bytes "1:bi2ee4:spami1ee") ∧
      AscendingLayout (.obj [(bytes "spam", .int 1),
        (bytes "cow", .obj [(bytes "b", .int 2), (bytes "a", .bin [0])])])
        (bytes "d3:cowd1:a1:" ++ [0] ++ bytes "1:bi2ee4:spami1ee") := by
  have hd : (Json.obj [(bytes "spam", .int 1),
      (bytes "cow", .obj [(bytes "b", .int 2), (bytes "a", .bin [0])])]).distinctKeys := by
    simp only [Json.distinctKeys, Json.distinctKeysMembers, and_true, List.map_cons,
      List.map_nil]
    decide
  have ho : bencode_info_dict (.obj [(bytes "spam", .int 1),
      (bytes "cow", .obj [(bytes "b", .int 2), (bytes "a", .bin [0])])]) =
      .ok (bytes "d3:cowd1:a1:" ++ [0] ++ bytes "1:bi2ee4:spami1ee") := by decide
  exact ⟨hd, ho, keys_ascending _ _ hd ho⟩

/-! ## Keys that do not start with a digit -/

/-- C11 (the code differs): on `dx:i1ee` the key position holds `x`, neither
`e` nor a digit, and the decoder returns a dictionary: the key is read by
`decode_bencoded_string` without the digit test of `decode_bencoded_value`,
`atoll` reads the length 0 from `x`, and the empty key is mapped to 1. -/
theorem decode_key_without_digit (n : Nat) :
    decode_bencoded_value (n + 4) (bytes "dx:i1ee") 0 = .ok (.obj [([], .int 1)], 7) := by
  have h := decode_fuel_mono 4 n (bytes "dx:i1ee") 0 (by decide)
  rw [Nat.add_comm n 4, h]
  decide

/-- C14 (the code differs): on the 4-byte buffer `d-4:` the decoder never
returns and never throws. The key `-4:` is read as a string of length -4, which
moves the cursor from 4 back to 0, and the value is then decoded at cursor 0,
the `d` again: every budget of nested calls is used up. -/
theorem decode_negative_length_diverges (fuel : Nat) :
    decode_bencoded_value fuel (bytes "d-4:") 0 = .outOfFuel := by
  have hd : (bytes "d-4:").drop 0 = 100 :: bytes "-4:" := by decide
  have hl : (bytes "d-4:").length < 2 ^ 63 := by decide
  have hp : 0 + 1 < (bytes "d-4:").length := by decide
  have hc : charAt (bytes "d-4:") (0 + 1) = some 45 := by decide
  have hk : decode_bencoded_string (bytes "d-4:") (0 + 1) = .ok (.str [], 0) := by decide
  have h45 : ¬ (45 : UInt8).toNat = 101 := by decide
  have step : ∀ f, decode_bencoded_value f (bytes "d-4:") 0 = .outOfFuel →
      decode_bencoded_value (f + 3) (bytes "d-4:") 0 = .outOfFuel := by
    intro f h
    rw [decode_value_d hd hl]
    simp only [decode_dict_loop, hp, hc, hk, h, h45, if_true, if_false]
  have three : ∀ f, decode_bencoded_value f (bytes "d-4:") 0 = .outOfFuel ∧
      decode_bencoded_value (f + 1) (bytes "d-4:") 0 = .outOfFuel ∧
      decode_bencoded_value (f + 2) (bytes "d-4:") 0 = .outOfFuel := by
    intro f
    induction f with
    | zero => exact ⟨by decide, by decide, by decide⟩
    | succ f ih => exact ⟨ih.2.1, ih.2.2, step f ih.1⟩
  exact (three fuel).1

/-- C15 (the code differs): in the 8-byte buffer `i1eed-8:` the call at cursor
4, the `d`, succeeds and leaves the cursor at 4: the key `-8:` moves the cursor
from 8 back to 0, the value `i1e` is decoded there, and the `e` at index 3
closes the dictionary. With one more byte in front of the `d` (`i1eeXd-9:`,
cursor 5) the cursor is left at 4, behind its start. -/
theorem decode_cursor_not_advanced (n : Nat) :
    decode_bencoded_value (n + 4) (bytes "i1eed-8:") 4 = .ok (.obj [([], .int 1)], 4) ∧
      decode_bencoded_value (n + 4) (bytes "i1eeXd-9:") 5 = .ok (.obj [([], .int 1)], 4) := by
  have h1 := decode_fuel_mono 4 n (bytes "i1eed-8:") 4 (by decide)
  have h2 := decode_fuel_mono 4 n (bytes "i1eeXd-9:") 5 (by decide)
  rw [Nat.add_comm n 4, h1, h2]
  exact ⟨by decide, by decide⟩

/-! ## The text of an integer -/

theorem stoll_eq_stollRange (t : Bytes) : stoll t = stollRange (hasMinus t) (afterSign t) := by
  unfold stoll hasMinus afterSign
  cases skipSpace t with
  | nil => rfl
  | cons b bs =>
    by_cases h1 : b.toNat = 45
    · simp [h1]
    · by_cases h2 : b.toNat = 43
      · simp [h2]
      · have hb : (b.toNat == 45) = false := by simpa using h1
        simp [h1, h2, hb]

theorem findIdx_none (c : Nat) : ∀ l : Bytes, (∀ b ∈ l, b.toNat ≠ c) → findIdx c l = none := by
  intro l
  induction l with
  | nil => intro _; rfl
  | cons b l ih =>
    intro h
    have hb : b.toNat ≠ c := h b (by simp)
    simp [findIdx, hb, ih (fun d hd => h d (by simp [hd]))]

/-- C12, counterexample: `i+5e` is decoded to 5; the text `+5` is not an
optional minus sign followed by digits, and decoding does not fail. -/
theorem decode_plus_sign :
    decode_bencoded_value 1 (bytes "i+5e") 0 = .ok (.int 5, 4) ∧
      ¬ ∃ x, decode_bencoded_value 1 (bytes "i+5e") 0 = .throw x := by
  have h : decode_bencoded_value 1 (bytes "i+5e") 0 = .ok (.int 5, 4) := by decide
  refine ⟨h, ?_⟩
  rintro ⟨x, hx⟩
  rw [h] at hx
  cases hx

/-- C12, amended: on `i<text>e`, where `<text>` holds no `e`, decoding fails
exactly as `std::stoll` rejects `<text>`: with `invalid_argument` when the
text, after leading white space and an optional `+` or `-`, does not begin
with an ASCII digit, and with `out_of_range` when the number its leading
digits form does not fit 64 bits; otherwise that number is returned, whatever
follows the digits, and the cursor is left behind the `e`. Without an `e`
after the `i`, decoding fails with `invalid_argument`. -/
theorem decode_integer_lenient (text rest : Bytes) (fuel : Nat)
    (htext : ∀ b ∈ text, b.toNat ≠ 101)
    (hlen : (105 :: (text ++ 101 :: rest)).length < 2 ^ 63) :
    decode_bencoded_value (fuel + 1) (105 :: (text ++ 101 :: rest)) 0 =
        (if startsWithDigit (afterSign text) then
          if hasMinus text then
            (if digitsValue 0 (afterSign text) ≤ 2 ^ 63 then
              .ok (.int (-(digitsValue 0 (afterSign text) : Int)), text.length + 2)
            else .throw .out_of_range)
          else
            (if digitsValue 0 (afterSign text) < 2 ^ 63 then
              .ok (.int (digitsValue 0 (afterSign text) : Int), text.length + 2)
            else .throw .out_of_range)
        else .throw .invalid_argument) ∧
      decode_bencoded_value (fuel + 1) (105 :: text) 0 = .throw .invalid_argument := by
  constructor
  · have hdrop : (105 :: (text ++ 101 :: rest)).drop 0 = 105 :: (text ++ 101 :: rest) := rfl
    have hfind : find (105 :: (text ++ 101 :: rest)) 101 1 = some (text.length + 1) := by
      unfold find
      rw [List.drop_one, List.tail_cons, findIdx_append 101 _ 101 _ htext rfl]
      rfl
    have hsub : substr (105 :: (text ++ 101 :: rest)) 1 (text.length + 1 - 1) = text := by
      unfold substr
      rw [List.drop_one, List.tail_cons, Nat.add_sub_cancel, List.take_left]
    simp only [List.length_cons, List.length_append] at hlen
    have hp : (text.length + 1 + 1) % 2 ^ 64 = text.length + 2 := by omega
    have h1 : (0 + 1) % 2 ^ 64 = 1 := rfl
    rw [decode_value_i hdrop]
    unfold decode_bencoded_integer
    simp only [h1, hfind, hsub, hp, stoll_eq_stollRange, stollRange]
    split_ifs <;> rfl
  · have hdrop : (105 :: text).drop 0 = 105 :: text := rfl
    have hfind : find (105 :: text) 101 1 = none := by
      unfold find
      rw [List.drop_one, List.tail_cons, findIdx_none 101 text htext]
      rfl
    have h1 : (0 + 1) % 2 ^ 64 = 1 := rfl
    rw [decode_value_i hdrop]
    unfold decode_bencoded_integer
    simp only [h1, hfind]

/-- Witness of C12 as amended: `i 12xe` is decoded to 12 and `i 12x` fails. -/
theorem decode_integer_lenient_witness :
    ((∀ b ∈ bytes " 12x", b.toNat ≠ 101) ∧ (bytes "i 12xe").length < 2 ^ 63) ∧
      decode_bencoded_value 1 (bytes "i 12xe") 0 = .ok (.int 12, 6) ∧
      decode_bencoded_value 1 (bytes "i 12x") 0 = .throw .invalid_argument := by
  have h := decode_integer_lenient (bytes " 12x") [] 0 (by decide) (by decide)
  exact ⟨by decide, h.1, h.2⟩

/-! ## The rendering of the digest -/

theorem hexDigit_lower : ∀ d, d < 16 → isLowerHex (hexDigit d) = true := by decide

/-- One byte is written as its two hexadecimal digits, a leading `0` included. -/
theorem setw_fill_hexNat : ∀ n, n < 256 →
    setw_fill 2 48 (hexNat n) = [hexDigit (n / 16), hexDigit (n % 16)] := by
  intro n hn
  by_cases h : n < 16
  · have h0 : n / 16 = 0 := Nat.div_eq_of_lt h
    have h1 : n % 16 = n := Nat.mod_eq_of_lt h
    rw [h0, h1]
    simp only [hexNat, hexAux, h, if_true, setw_fill, List.length_singleton]
    rfl
  · obtain ⟨k, rfl⟩ : ∃ k, n = k + 1 := ⟨n - 1, by omega⟩
    have h2 : (k + 1) / 16 < 16 := by omega
    simp only [hexNat, hexAux, h, h2, if_true, if_false, setw_fill, List.length_cons,
      List.length_nil]
    rfl

theorem flatMap_pair_length {α β : Type} (f g : α → β) : ∀ l : List α,
    (l.flatMap (fun a => [f a, g a])).length = 2 * l.length
  | [] => rfl
  | a :: l => by
    simp only [List.flatMap_cons, List.length_append, List.length_cons, List.length_nil,
      flatMap_pair_length f g l]
    omega

theorem flatMap_pair_getElem {α β : Type} (f g : α → β) : ∀ (l : List α) (i : Nat),
    (l.flatMap (fun a => [f a, g a]))[2 * i]? = (l[i]?).map f ∧
      (l.flatMap (fun a => [f a, g a]))[2 * i + 1]? = (l[i]?).map g
  | [], i => by simp
  | a :: l, 0 => by simp
  | a :: l, i + 1 => by
    have ih := flatMap_pair_getElem f g l i
    have e1 : 2 * (i + 1) = 2 * i + 1 + 1 := by omega
    have e2 : 2 * (i + 1) + 1 = 2 * i + 1 + 1 + 1 := by omega
    simp only [List.flatMap_cons, List.cons_append, List.nil_append, e1, e2,
      List.getElem?_cons_succ]
    exact ih

theorem calculate_info_hash_eq (SHA1 : Bytes → Fin 20 → UInt8) (s : Bytes) :
    calculate_info_hash SHA1 s =
      (List.finRange 20).flatMap (fun i =>
        [hexDigit ((SHA1 s i).toNat / 16), hexDigit ((SHA1 s i).toNat % 16)]) := by
  unfold calculate_info_hash
  congr 1
  funext i
  exact setw_fill_hexNat _ (SHA1 s i).toNat_lt

theorem hexDigit_alphabet : ∀ d, d < 16 → hexDigit d = lower_hex_alphabet.getD d 0 := by
  decide

theorem hex_two_digits_eq (b : UInt8) :
    [hexDigit (b.toNat / 16), hexDigit (b.toNat % 16)] = hex_two_digits b := by
  have hb := b.toNat_lt
  unfold hex_two_digits
  rw [hexDigit_alphabet _ (by omega), hexDigit_alphabet _ (by omega)]

theorem hex_pair_value_digits : ∀ hi, hi < 16 → ∀ lo, lo < 16 →
    hex_pair_value (lower_hex_alphabet.getD hi 0) (lower_hex_alphabet.getD lo 0) =
      some (16 * hi + lo) := by
  decide

/-- C16: for every input and whatever function `SHA1` is, `calculate_info_hash`
returns the twenty two-digit forms `hex_two_digits` of the digest bytes one
after the other: 40 characters, each one of `0` to `9` and `a` to `f`, and the
characters at 2i and 2i+1 are the zero-padded two-digit lowercase hexadecimal
form of the i-th byte, which read back as a hexadecimal number is that byte. -/
theorem calculate_info_hash_format (SHA1 : Bytes → Fin 20 → UInt8) (s : Bytes) :
    calculate_info_hash SHA1 s =
        (List.finRange 20).flatMap (fun i => hex_two_digits (SHA1 s i)) ∧
      (calculate_info_hash SHA1 s).length = 40 ∧
      (∀ c ∈ calculate_info_hash SHA1 s, isLowerHex c = true) ∧
      ∀ i : Fin 20, ∃ hi lo,
        (calculate_info_hash SHA1 s)[2 * i.val]? = some hi ∧
        (calculate_info_hash SHA1 s)[2 * i.val + 1]? = some lo ∧
        [hi, lo] = hex_two_digits (SHA1 s i) ∧
        hex_pair_value hi lo = some (SHA1 s i).toNat := by
  refine ⟨?_, ?_, ?_, ?_⟩
  · rw [calculate_info_hash_eq]
    congr 1
    funext i
    exact hex_two_digits_eq _
  · rw [calculate_info_hash_eq, flatMap_pair_length, List.length_finRange]
  · rw [calculate_info_hash_eq]
    intro c hc
    rw [List.mem_flatMap] at hc
    obtain ⟨i, _, hi⟩ := hc
    have hb := (SHA1 s i).toNat_lt
    simp only [List.mem_cons, List.mem_singleton, List.not_mem_nil, or_false] at hi
    rcases hi with hi | hi
    · rw [hi]; exact hexDigit_lower _ (by omega)
    · rw [hi]; exact hexDigit_lower _ (by omega)
  · intro i
    have hb := (SHA1 s i).toNat_lt
    have hi : (List.finRange 20)[i.val]? = some i := by
      rw [List.getElem?_eq_getElem (by simp)]
      simp
    have h := flatMap_pair_getElem
      (fun j => hexDigit ((SHA1 s j).toNat / 16)) (fun j => hexDigit ((SHA1 s j).toNat % 16))
      (List.finRange 20) i.val
    rw [hi] at h
    rw [calculate_info_hash_eq]
    refine ⟨hexDigit ((SHA1 s i).toNat / 16), hexDigit ((SHA1 s i).toNat % 16), h.1, h.2,
      hex_two_digits_eq _, ?_⟩
    rw [hexDigit_alphabet _ (by omega), hexDigit_alphabet _ (by omega),
      hex_pair_value_digits _ (by omega) _ (by omega)]
    congr 1
    omega

/-- The rendering on a concrete digest: the twenty bytes `da 39 a3 ee ...
07 09` come out as the text `da39a3ee5e6b4b0d3255bfef95601890afd80709`, the
bytes `0d`, `07` and `09` with their leading zero. -/
theorem calculate_info_hash_format_witness :
    calculate_info_hash sample_digest (bytes "d6:lengthi1ee") =
        bytes "da39a3ee5e6b4b0d3255bfef95601890afd80709" ∧
      (calculate_info_hash sample_digest (bytes "d6:lengthi1ee"))[12]? = some 52 ∧
      (calculate_info_hash sample_digest (bytes "d6:lengthi1ee"))[13]? = some 98 ∧
      hex_pair_value 52 98 = some 75 := by
  have h := calculate_info_hash_format sample_digest (bytes "d6:lengthi1ee")
  exact ⟨h.1.trans (by decide), by decide, by decide, by decide⟩

/-! ## Lists and dictionaries without their closing `e` -/

theorem not_lt_length_of_drop_nil {s : Bytes} {pos : Nat} (h : s.drop pos = []) :
    ¬ pos < s.length := by
  intro hlt
  have := congrArg List.length h
  simp at this
  omega

/-- The list loop on the encodings of the elements followed by the end of the
buffer. -/
theorem decode_list_loop_open : ∀ (xs : List Wire) (f : Nat) (s : Bytes) (pos : Nat)
    (acc : List Json),
    Wire.intsFitList xs = true → s.drop pos = Wire.encodeList xs →
    s.length < 2 ^ 63 → 2 * (Wire.encodeList xs).length + 1 ≤ f →
    decode_list_loop f s pos acc =
      .throw (if Wire.keysTextList xs then .runtime_error else .type_error)
  | [], f, s, pos, acc, _, hdrop, _, hf => by
    obtain ⟨f, rfl⟩ : ∃ g, f = g + 1 := ⟨f - 1, by omega⟩
    have hp := not_lt_length_of_drop_nil (by simpa [Wire.encodeList] using hdrop)
    simp only [decode_list_loop, hp, if_false, Wire.keysTextList, if_true]
  | x :: xs, f, s, pos, acc, hfit, hdrop, hlen, hf => by
    have hl := x.encode_length
    obtain ⟨f, rfl⟩ : ∃ g, f = g + 1 := ⟨f - 1, by omega⟩
    obtain ⟨b, t, ht, _, hb⟩ := x.encode_head
    simp only [Wire.intsFitList, Bool.and_eq_true] at hfit
    have hlenc : (Wire.encodeList (x :: xs)).length =
        x.encode.length + (Wire.encodeList xs).length := by
      simp [Wire.encodeList]
    have hdrop1 : s.drop pos = x.encode ++ Wire.encodeList xs := by
      simpa [Wire.encodeList] using hdrop
    have hdrop0 : s.drop pos = b :: (t ++ Wire.encodeList xs) := by
      rw [hdrop1, ht]; rfl
    rw [decode_list_loop_step acc hdrop0 (not_e_of_head hb),
      decode_value_wire x f s pos _ hfit.1 hdrop1 hlen (by omega)]
    by_cases hx : x.keysText = true
    · simp only [hx, if_true, Res.bind]
      rw [decode_list_loop_open xs f s (pos + x.encode.length) (acc ++ [x.toJson]) hfit.2
        (drop_add_of_drop hdrop1) hlen (by omega)]
      simp only [Wire.keysTextList, hx, Bool.true_and]
    · simp [hx, Res.bind, Wire.keysTextList]

/-- The dictionary loop on the encodings of the pairs followed by the end of
the buffer. -/
theorem decode_dict_loop_open : ∀ (kvs : List (Bytes × Wire)) (f : Nat) (s : Bytes) (pos : Nat)
    (acc : List (Bytes × Json)),
    Wire.intsFitPairs kvs = true → s.drop pos = Wire.encodePairs kvs →
    s.length < 2 ^ 63 → 2 * (Wire.encodePairs kvs).length + 1 ≤ f →
    decode_dict_loop f s pos acc =
      .throw (if Wire.keysTextPairs kvs then .runtime_error else .type_error)
  | [], f, s, pos, acc, _, hdrop, _, hf => by
    obtain ⟨f, rfl⟩ : ∃ g, f = g + 1 := ⟨f - 1, by omega⟩
    have hp := not_lt_length_of_drop_nil (by simpa [Wire.encodePairs] using hdrop)
    simp only [decode_dict_loop, hp, if_false, Wire.keysTextPairs, if_true]
  | (k, v) :: kvs, f, s, pos, acc, hfit, hdrop, hlen, hf => by
    have hl := v.encode_length
    obtain ⟨f, rfl⟩ : ∃ g, f = g + 1 := ⟨f - 1, by omega⟩
    simp only [Wire.intsFitPairs, Bool.and_eq_true] at hfit
    have hlenc : (Wire.encodePairs ((k, v) :: kvs)).length =
        (natDec k.length).length + 1 + k.length +
          (v.encode.length + (Wire.encodePairs kvs).length) := by
      simp [Wire.encodePairs]
      omega
    have hdrop1 : s.drop pos =
        natDec k.length ++ 58 :: (k ++ (v.encode ++ Wire.encodePairs kvs)) := by
      simpa [Wire.encodePairs] using hdrop
    have hdrop2 : s.drop (pos + (natDec k.length).length + 1 + k.length) =
        v.encode ++ Wire.encodePairs kvs := by
      have := @drop_add_of_drop s pos (natDec k.length ++ 58 :: k)
        (v.encode ++ Wire.encodePairs kvs) (by simpa using hdrop1)
      have he : pos + (natDec k.length ++ 58 :: k).length =
          pos + (natDec k.length).length + 1 + k.length := by
        simp only [List.length_append, List.length_cons]
        omega
      rw [he] at this
      exact this
    rw [decode_dict_loop_step acc hdrop1 hlen,
      decode_value_wire v f s _ _ hfit.1 hdrop2 hlen (by omega)]
    by_cases hv : v.keysText = true
    · by_cases hk : is_binary_data k = true
      · simp [hv, hk, Res.bind, Wire.keysTextPairs]
      · simp only [hv, hk, if_true, if_false, Res.bind]
        rw [decode_dict_loop_open kvs f s _ (map_assign k v.toJson acc) hfit.2
          (drop_add_of_drop hdrop2) hlen (by omega)]
        simp only [Wire.keysTextPairs, hv, hk, Bool.not_false, Bool.true_and, Bool.and_true]
        simp
    · simp [hv, Res.bind, Wire.keysTextPairs]

/-- C18: a buffer made of `l` and the encodings of zero or more well-formed
values, and a buffer made of `d` and the encodings of zero or more well-formed
key/value pairs, both ending without the closing `e`, make the decoder throw:
no list and no dictionary is returned. The exception is the `runtime_error` of
the loop, or the `type_error` of a binary dictionary key met before the end. -/
theorem decode_unterminated (xs : List Wire) (kvs : List (Bytes × Wire)) (fuel : Nat)
    (hfit1 : Wire.intsFitList xs = true) (hfit2 : Wire.intsFitPairs kvs = true)
    (hlen1 : (108 :: Wire.encodeList xs).length < 2 ^ 63)
    (hlen2 : (100 :: Wire.encodePairs kvs).length < 2 ^ 63)
    (hfuel1 : 2 * (108 :: Wire.encodeList xs).length < fuel)
    (hfuel2 : 2 * (100 :: Wire.encodePairs kvs).length < fuel) :
    decode_bencoded_value fuel (108 :: Wire.encodeList xs) 0 =
        .throw (if Wire.keysTextList xs then .runtime_error else .type_error) ∧
      decode_bencoded_value fuel (100 :: Wire.encodePairs kvs) 0 =
        .throw (if Wire.keysTextPairs kvs then .runtime_error else .type_error) := by
  simp only [List.length_cons] at hfuel1 hfuel2
  obtain ⟨f, rfl⟩ : ∃ g, fuel = g + 2 := ⟨fuel - 2, by omega⟩
  constructor
  · rw [@decode_value_l f (108 :: Wire.encodeList xs) 0 (Wire.encodeList xs) rfl hlen1]
    exact decode_list_loop_open xs f _ (0 + 1) [] hfit1 rfl hlen1 (by omega)
  · rw [@decode_value_d f (100 :: Wire.encodePairs kvs) 0 (Wire.encodePairs kvs) rfl hlen2]
    exact decode_dict_loop_open kvs f _ (0 + 1) [] hfit2 rfl hlen2 (by omega)

/-- Witness of C18: `l4:spam` and `d3:cow3:moo` make the decoder throw. -/
theorem decode_unterminated_witness :
    (Wire.intsFitList [Wire.str (bytes "spam")] = true ∧
      Wire.intsFitPairs [(bytes "cow", Wire.str (bytes "moo"))] = true ∧
      (bytes "l4:spam").length < 2 ^ 63 ∧ (bytes "d3:cow3:moo").length < 2 ^ 63) ∧
    decode_bencoded_value 30 (bytes "l4:spam") 0 = .throw .runtime_error ∧
    decode_bencoded_value 30 (bytes "d3:cow3:moo") 0 = .throw .runtime_error := by
  have h := decode_unterminated [Wire.str (bytes "spam")]
    [(bytes "cow", Wire.str (bytes "moo"))] 30
    (by decide) (by decide) (by decide) (by decide) (by decide) (by decide)
  exact ⟨by decide, h.1, h.2⟩

/-! ## A key that occurs more than once -/

theorem mem_map_assign_self (key : Bytes) (value : Json) :
    ∀ m : List (Bytes × Json), (key, value) ∈ map_assign key value m
  | [] => by simp [map_assign]
  | (k, v) :: rest => by
    simp only [map_assign]
    by_cases h1 : bytesLt key k = true
    · simp [h1]
    · by_cases h2 : bytesLt k key = true
      · simp only [h1, h2, Bool.false_eq_true, if_true, if_false]
        exact List.mem_cons_of_mem _ (mem_map_assign_self key value rest)
      · have hk : key = k := bytesLt_total key k (by simpa using h1) (by simpa using h2)
        subst hk
        simp [bytesLt_irrefl]

theorem mem_map_assign_of_ne (key : Bytes) (value : Json) (x : Bytes × Json)
    (hx : x.1 ≠ key) : ∀ m : List (Bytes × Json), x ∈ m → x ∈ map_assign key value m
  | [], h => by cases h
  | (k, v) :: rest, h => by
    simp only [map_assign]
    by_cases h1 : bytesLt key k = true
    · simp only [h1, if_true]
      exact List.mem_cons_of_mem _ h
    · by_cases h2 : bytesLt k key = true
      · simp only [h1, h2, Bool.false_eq_true, if_true, if_false]
        rcases List.mem_cons.mp h with h | h
        · rw [h]; exact List.mem_cons_self _ _
        · exact List.mem_cons_of_mem _ (mem_map_assign_of_ne key value x hx rest h)
      · have hk : key = k := bytesLt_total key k (by simpa using h1) (by simpa using h2)
        simp only [h1, h2, Bool.false_eq_true, if_false]
        rcases List.mem_cons.mp h with h | h
        · rw [h] at hx
          exact absurd hk.symm hx
        · exact List.mem_cons_of_mem _ h

theorem keyOrdered_assign_all : ∀ (pairs acc : List (Bytes × Json)), KeyOrdered acc →
    KeyOrdered (assign_all acc pairs)
  | [], _, h => h
  | (k, v) :: pairs, acc, h =>
    keyOrdered_assign_all pairs (map_assign k v acc) (keyOrdered_map_assign k v acc h)

theorem mem_assign_all_of_ne (x : Bytes × Json) : ∀ (pairs acc : List (Bytes × Json)),
    x.1 ∉ pairs.map Prod.fst → x ∈ acc → x ∈ assign_all acc pairs
  | [], _, _, h => h
  | (k, v) :: pairs, acc, hk, h => by
    simp only [List.map_cons, List.mem_cons, not_or] at hk
    exact mem_assign_all_of_ne x pairs (map_assign k v acc) hk.2
      (mem_map_assign_of_ne k v x hk.1 acc h)

/-- In a map in key order the entries under one key are one entry. -/
theorem filter_key_of_mem (k : Bytes) (x : Json) : ∀ m : List (Bytes × Json), KeyOrdered m →
    (k, x) ∈ m → m.filter (fun e => decide (e.1 = k)) = [(k, x)]
  | [], _, h => by cases h
  | (k0, v0) :: rest, hm, h => by
    unfold KeyOrdered at hm
    rw [List.pairwise_cons] at hm
    rcases List.mem_cons.mp h with h | h
    · cases h
      have hrest : rest.filter (fun e => decide (e.1 = k)) = [] := by
        rw [List.filter_eq_nil_iff]
        intro e he
        have hlt := hm.1 e he
        simp only [decide_eq_true_eq]
        intro heq
        rw [heq, bytesLt_irrefl] at hlt
        cases hlt
      simp [List.filter_cons, hrest]
    · have hlt := hm.1 (k, x) h
      have hne : k0 ≠ k := by
        intro heq
        rw [heq, bytesLt_irrefl] at hlt
        cases hlt
      simp only [List.filter_cons, hne, decide_False, Bool.false_eq_true, if_false]
      exact filter_key_of_mem k x rest hm.2 h

/-- C19, counterexample: the well-formed dictionary `d1:<0>i1e1:<0>i2ee`,
whose key of one zero byte occurs twice, is not decoded: the key is stored as
a binary value and `dict[key]` throws a `type_error`. -/
theorem decode_duplicate_binary_key :
    (Wire.dict [([0], Wire.int 1), ([0], Wire.int 2)]).encode =
        bytes "d1:" ++ [0] ++ bytes "i1e1:" ++ [0] ++ bytes "i2ee" ∧
      decode 26 (bytes "d1:" ++ [0] ++ bytes "i1e1:" ++ [0] ++ bytes "i2ee") =
        .throw .type_error := by
  exact ⟨by decide, by decide⟩

/-- C19, amended: for every well-formed encoded dictionary whose keys, at
every depth, are text, decoding succeeds, and a key, wherever else it occurs
among the pairs, is held exactly once by the resulting dictionary, mapped to
the value of its last occurrence. -/
theorem decode_duplicate_key (l1 l2 : List (Bytes × Wire)) (k : Bytes) (v : Wire) (fuel : Nat)
    (hlast : k ∉ l2.map Prod.fst)
    (hkeys : Wire.keysTextPairs (l1 ++ (k, v) :: l2) = true)
    (hfit : Wire.intsFitPairs (l1 ++ (k, v) :: l2) = true)
    (hlen : (Wire.dict (l1 ++ (k, v) :: l2)).encode.length < 2 ^ 63)
    (hfuel : 2 * (Wire.dict (l1 ++ (k, v) :: l2)).encode.length ≤ fuel) :
    ∃ m, decode_bencoded_value fuel (Wire.dict (l1 ++ (k, v) :: l2)).encode 0 =
        .ok (.obj m, (Wire.dict (l1 ++ (k, v) :: l2)).encode.length) ∧
      m.filter (fun e => decide (e.1 = k)) = [(k, v.toJson)] := by
  refine ⟨assign_all [] (Wire.toJsonPairs (l1 ++ (k, v) :: l2)), ?_, ?_⟩
  · rw [decode_value_wire (Wire.dict (l1 ++ (k, v) :: l2)) fuel _ 0 []
      (by simpa [Wire.intsFit] using hfit) (by simp) hlen hfuel]
    simp [Wire.keysText, hkeys, Wire.toJson]
  · apply filter_key_of_mem k v.toJson _ (keyOrdered_assign_all _ [] List.Pairwise.nil)
    rw [Wire.toJsonPairs_eq_map, List.map_append, List.map_cons, assign_all, List.foldl_append,
      List.foldl_cons]
    apply mem_assign_all_of_ne
    · simpa [List.map_map] using hlast
    · exact mem_map_assign_self k v.toJson _

/-- Witness of C19 as amended: in `d1:ai1e1:bi0e1:ai2ee` the key `a` occurs
twice and the decoded dictionary maps it to 2. -/
theorem decode_duplicate_key_witness :
    (bytes "a" ∉ ([] : List (Bytes × Wire)).map Prod.fst ∧
      bytes "a" ∈ ([(bytes "a", Wire.int 1), (bytes "b", Wire.int 0)] :
        List (Bytes × Wire)).map Prod.fst) ∧
    ∃ m, decode_bencoded_value 40 (bytes "d1:ai1e1:bi0e1:ai2ee") 0 = .ok (.obj m, 20) ∧
      m.filter (fun e => decide (e.1 = bytes "a")) = [(bytes "a", .int 2)] := by
  have h := decode_duplicate_key [(bytes "a", Wire.int 1), (bytes "b", Wire.int 0)] []
    (bytes "a") (Wire.int 2) 40 (by decide) (by decide) (by decide) (by decide) (by decide)
  exact ⟨by decide, h⟩

/-! ## The re-encoder on binary strings, 32-bit integers and dictionaries -/

theorem toInt32_of_fits {n : Int} (hlo : -(2 ^ 31) ≤ n) (hhi : n < 2 ^ 31) : toInt32 n = n := by
  unfold toInt32
  omega

theorem encode_canonical_members_eq_map : ∀ kvs : List (Bytes × Json),
    encode_canonical_members kvs = kvs.map (fun kv => (kv.1, encode_canonical kv.2))
  | [] => rfl
  | (k, v) :: rest => by
    simp [encode_canonical_members, encode_canonical_members_eq_map rest]

theorem emit_entries_of_lookup (table : List (Bytes × Res Bytes)) (g : Bytes × Json → Bytes) :
    ∀ l : List (Bytes × Json), (∀ kv ∈ l, lookup_entry kv.1 table = .ok (g kv)) →
    emit_entries table (l.map Prod.fst) =
      .ok (l.flatMap (fun kv => natDec kv.1.length ++ 58 :: kv.1 ++ g kv))
  | [], _ => rfl
  | (k, v) :: rest, h => by
    simp only [List.map_cons, emit_entries, h (k, v) (by simp), Res.bind,
      emit_entries_of_lookup table g rest (fun kv hkv => h kv (by simp [hkv]))]
    simp

mutual
theorem emit_value_plain : ∀ v : Json, v.plain = true → v.distinctKeys →
    emit_value v = .ok (encode_canonical v)
  | .null, h, _ => by simp [Json.plain] at h
  | .str _, h, _ => by simp [Json.plain] at h
  | .arr _, h, _ => by simp [Json.plain] at h
  | .bin b, _, _ => by simp [emit_value, encode_canonical]
  | .int n, h, _ => by
    simp only [Json.plain, Bool.and_eq_true, decide_eq_true_eq] at h
    simp [emit_value, encode_canonical, toInt32_of_fits h.1 h.2]
  | .obj kvs, h, hd => by
    simp only [Json.plain] at h
    simp only [Json.distinctKeys] at hd
    have hperm := List.perm_insertionSort (fun a b : Bytes × Json => bytesLe a.1 b.1) kvs
    have hentries := emit_entries_of_lookup (emit_values kvs)
      (fun kv => encode_canonical kv.2)
      (kvs.insertionSort (fun a b => bytesLe a.1 b.1))
      (fun kv hkv => by
        have hmem := hperm.mem_iff.mp hkv
        rw [lookup_emit_values kvs kv.1 kv.2 hd.1 hmem]
        exact emit_members_plain kvs h hd.2 kv hmem)
    rw [sort_entries] at hentries
    have hsort : sort_by_key (encode_canonical_members kvs) =
        (kvs.insertionSort (fun a b => bytesLe a.1 b.1)).map
          (fun kv => (kv.1, encode_canonical kv.2)) := by
      rw [encode_canonical_members_eq_map]
      exact (List.map_insertionSort (fun a b : Bytes × Json => bytesLe a.1 b.1)
        (fun a b : Bytes × Bytes => bytesLe a.1 b.1)
        (fun kv => (kv.1, encode_canonical kv.2)) kvs (fun _ _ _ _ => Iff.rfl)).symm
    simp only [emit_value, write_dict, hentries, Res.bind, encode_canonical, hsort,
      List.flatMap_map]
    simp
theorem emit_members_plain : ∀ kvs : List (Bytes × Json), Json.plainMembers kvs = true →
    Json.distinctKeysMembers kvs → ∀ kv ∈ kvs, emit_value kv.2 = .ok (encode_canonical kv.2)
  | [], _, _, _, h => by cases h
  | (k, v) :: rest, hp, hd, kv, hmem => by
    simp only [Json.plainMembers, Bool.and_eq_true] at hp
    simp only [Json.distinctKeysMembers] at hd
    rcases List.mem_cons.mp hmem with hm | hm
    · rw [hm]
      exact emit_value_plain v hp.1 hd.1
    · exact emit_members_plain rest hp.2 hd.2 kv hm
end

/-- C20: for every dictionary, a `std::map` and so without a repeated key,
whose values are binary byte-strings, integers within the signed 32-bit range
or dictionaries of the same shape, `bencode_info_dict` returns exactly the
canonical encoding of the specification: `d`, then for each key in ascending
byte order `<key length>:<key>` and the value, as `<length>:<raw bytes>`,
`i<decimal>e` or the encoding of the nested dictionary, then `e`. -/
theorem bencode_info_dict_canonical (kvs : List (Bytes × Json))
    (hshape : (Json.obj kvs).plain = true) (hkeys : (Json.obj kvs).distinctKeys) :
    bencode_info_dict (.obj kvs) = .ok (encode_canonical (.obj kvs)) := by
  have h := emit_value_plain (.obj kvs) hshape hkeys
  simpa [emit_value, bencode_info_dict] using h

/-- Witness of C20: the map with `spam` mapped to 1 and `cow` mapped to the map
of `b` to -2 and `a` to the two bytes 0 and 255 is written as
`d3:cowd1:a2:<0><255>1:bi-2ee4:spami1ee`. -/
theorem bencode_info_dict_canonical_witness :
    ((Json.obj [(bytes "spam", .int 1),
        (bytes "cow", .obj [(bytes "b", .int (-2)), (bytes "a", .bin [0, 255])])]).plain = true ∧
      (Json.obj [(bytes "spam", .int 1),
        (bytes "cow", .obj [(bytes "b", .int (-2)), (bytes "a", .bin [0, 255])])]).distinctKeys) ∧
    bencode_info_dict (.obj [(bytes "spam", .int 1),
        (bytes "cow", .obj [(bytes "b", .int (-2)), (bytes "a", .bin [0, 255])])]) =
      .ok (bytes "d3:cowd1:a2:" ++ [0, 255] ++ bytes "1:bi-2ee4:spami1ee") := by
  have hp : (Json.obj [(bytes "spam", .int 1),
      (bytes "cow", .obj [(bytes "b", .int (-2)), (bytes "a", .bin [0, 255])])]).plain = true := by
    decide
  have hd : (Json.obj [(bytes "spam", .int 1),
      (bytes "cow", .obj [(bytes "b", .int (-2)), (bytes "a", .bin [0, 255])])]).distinctKeys := by
    simp only [Json.distinctKeys, Json.distinctKeysMembers, and_true, List.map_cons,
      List.map_nil]
    decide
  have h := bencode_info_dict_canonical _ hp hd
  exact ⟨⟨hp, hd⟩, h⟩

/-! ## The inspection of a metadata document -/

theorem parse_torrent_file_mono (SHA1 : Bytes → Fin 20 → UInt8) (f n : Nat) (s : Bytes)
    (h : decode f s ≠ .outOfFuel) :
    parse_torrent_file SHA1 (f + n) s = parse_torrent_file SHA1 f s := by
  unfold parse_torrent_file
  rw [decode_mono f n s h]

/-- A document without the key `announce` makes the inspection throw: the null
the subscript inserts is not a string. -/
theorem inspect_missing_announce (SHA1 : Bytes → Fin 20 → UInt8) (kvs : List (Bytes × Json))
    (h : map_find (bytes "announce") kvs = none) :
    inspect SHA1 (.obj kvs) = .throw .type_error := by
  simp [inspect, subscript, h, Res.bind, get_to_string]

/-- C13 (the code differs): the document `d8:announce3:urle` has no key `info`,
and the inspection does not fail: `decoded_data["info"]["length"]` inserts a
null under `info`, turns it into an object and inserts a null under `length`,
so that `Length: null` is printed and the digest of `d6:lengthe` is printed as
the info-hash. -/
theorem inspect_missing_info (SHA1 : Bytes → Fin 20 → UInt8) (n : Nat) :
    parse_torrent_file SHA1 (n + 4) (bytes "d8:announce3:urle") =
      .ok { tracker_url := bytes "url"
            length := .null
            bencoded_info := bytes "d6:lengthe"
            info_hash := calculate_info_hash SHA1 (bytes "d6:lengthe")
            decoded_data := .obj [(bytes "announce", .str (bytes "url")),
              (bytes "info", .obj [(bytes "length", .null)])] } := by
  rw [Nat.add_comm n 4, parse_torrent_file_mono SHA1 4 n _ (by decide)]
  have hd : decode 4 (bytes "d8:announce3:urle") =
      .ok (.obj [(bytes "announce", .str (bytes "url"))]) := by decide
  unfold parse_torrent_file
  rw [hd]
  rfl

/-- C17 (the code differs): in the document
`d8:announce3:url4:infod12:piece lengthi16384eee` the dictionary `info` has no
key `length`. The decoder gives `info` one entry, which `bencode_info_dict`
writes as `d12:piece lengthi16384ee`; the inspection digests
`d6:length12:piece lengthi16384ee`, because reading `info.length` has inserted
a null under `length`, and the tree it leaves holds that entry. -/
theorem inspect_adds_length (SHA1 : Bytes → Fin 20 → UInt8) (n : Nat) :
    decode (n + 8) (bytes "d8:announce3:url4:infod12:piece lengthi16384eee") =
        .ok (.obj [(bytes "announce", .str (bytes "url")),
          (bytes "info", .obj [(bytes "piece length", .int 16384)])]) ∧
      bencode_info_dict (.obj [(bytes "piece length", .int 16384)]) =
        .ok (bytes "d12:piece lengthi16384ee") ∧
      parse_torrent_file SHA1 (n + 8) (bytes "d8:announce3:url4:infod12:piece lengthi16384eee") =
        .ok { tracker_url := bytes "url"
              length := .null
              bencoded_info := bytes "d6:length12:piece lengthi16384ee"
              info_hash := calculate_info_hash SHA1 (bytes "d6:length12:piece lengthi16384ee")
              decoded_data := .obj [(bytes "announce", .str (bytes "url")),
                (bytes "info", .obj [(bytes "length", .null),
                  (bytes "piece length", .int 16384)])] } := by
  have hd : decode 8 (bytes "d8:announce3:url4:infod12:piece lengthi16384eee") =
      .ok (.obj [(bytes "announce", .str (bytes "url")),
        (bytes "info", .obj [(bytes "piece length", .int 16384)])]) := by decide
  have hm := decode_mono 8 n (bytes "d8:announce3:url4:infod12:piece lengthi16384eee")
    (by rw [hd]; exact Res.noConfusion)
  rw [Nat.add_comm n 8]
  refine ⟨by rw [hm, hd], by decide, ?_⟩
  unfold parse_torrent_file
  rw [hm, hd]
  rfl

theorem mem_of_map_find {k : Bytes} {v : Json} : ∀ m : List (Bytes × Json),
    map_find k m = some v → (k, v) ∈ m
  | [], h => by cases h
  | (k0, v0) :: rest, h => by
    simp only [map_find] at h
    by_cases hk : k0 = k
    · simp only [hk, if_true, Option.some.injEq] at h
      rw [hk, h]
      exact List.mem_cons_self _ _
    · simp only [hk, if_false] at h
      exact List.mem_cons_of_mem _ (mem_of_map_find rest h)

/-- Assigning to a key the value a map in key order holds under it changes
nothing. -/
theorem map_assign_of_find {k : Bytes} {v : Json} : ∀ m : List (Bytes × Json), KeyOrdered m →
    map_find k m = some v → map_assign k v m = m
  | [], _, h => by cases h
  | (k0, v0) :: rest, hm, h => by
    unfold KeyOrdered at hm
    rw [List.pairwise_cons] at hm
    simp only [map_find] at h
    by_cases hk : k0 = k
    · simp only [hk, if_true, Option.some.injEq] at h
      simp [map_assign, hk, h, bytesLt_irrefl]
    · simp only [hk, if_false] at h
      have hlt : bytesLt k0 k = true := hm.1 (k, v) (mem_of_map_find rest h)
      simp only [map_assign, bytesLt_asymm k0 k hlt, hlt, Bool.false_eq_true, if_true, if_false]
      rw [map_assign_of_find rest hm.2 h]

/-- The part of C17 that holds: when `info` has a key `length`, the reads add
no key and change no value, and the bytes digested are those
`bencode_info_dict` writes for `info` as decoded. -/
theorem inspect_with_length (SHA1 : Bytes → Fin 20 → UInt8) (kvs ikvs : List (Bytes × Json))
    (url : Bytes) (len : Json) (hord : KeyOrdered kvs)
    (ha : map_find (bytes "announce") kvs = some (.str url))
    (hi : map_find (bytes "info") kvs = some (.obj ikvs))
    (hl : map_find (bytes "length") ikvs = some len) (hdump : dump_throws len = false) :
    inspect SHA1 (.obj kvs) =
      (bencode_info_dict (.obj ikvs)).bind (fun b =>
        .ok { tracker_url := url
              length := len
              bencoded_info := b
              info_hash := calculate_info_hash SHA1 b
              decoded_data := .obj kvs }) := by
  simp only [inspect, subscript, ha, hi, hl, Res.bind, get_to_string, hdump, store,
    map_assign_of_find kvs hord hi, Bool.false_eq_true, if_false]

end Bencode
